import Mathlib

/-!
# Verification of the RAG-Streamlit web crawler core

A shallow embedding of the crawler core of the repository
(`src/scraper/web_scraper.py` and `src/utils/url_validator.py`) together with
models of the external library functions they call (`urllib.parse.urlparse`,
`urllib.parse.urljoin`, `validators.url`, and the BeautifulSoup accessors used
by the extractor).  All text processing is done on `List Char`; `String`
wrappers carry the Python-side names.

Modelling notes, stated once here:
* Machine floats (`time.time` timestamps) and logging are omitted: no claim
  concerns them.
* The `metadata` dictionary of `ScrapedPage` is omitted: no claim concerns it.
* Python's HTTP layer is modelled by an abstract `web : String → Option HDoc`
  map; `none` covers every per-URL failure (network error, non-2xx status,
  unparseable body), which the source collapses into `_scrape_page` returning
  `None`.
-/

namespace RagScraper

/-! ## Character-list utilities (models of the Python `str` methods used) -/

/-- Model of Python `str.strip()` restricted to ASCII whitespace
(`Char.isWhitespace` covers space, tab, CR, LF; Python also strips rarer
Unicode whitespace, which no claim exercises). -/
def trimChars (s : List Char) : List Char :=
  ((s.dropWhile Char.isWhitespace).reverse.dropWhile Char.isWhitespace).reverse

/-- `startsWithList pat s` is true when `pat` is an initial segment of `s`;
model of Python `str.startswith`. -/
def startsWithList : List Char → List Char → Bool
  | [], _ => true
  | _ :: _, [] => false
  | p :: ps, c :: cs => p = c && startsWithList ps cs

/-- Split a character list at the first occurrence of `c`: model of Python
`s.split(c, 1)`.  When `c` does not occur the second component is empty, which
matches how the callers below use the result. -/
def splitFirst (c : Char) (s : List Char) : List Char × List Char :=
  (s.takeWhile (· ≠ c), (s.dropWhile (· ≠ c)).drop 1)

/-- Split on every character satisfying `p`; always returns a nonempty list of
(possibly empty) pieces.  Used to model `str.splitlines` and, on the
specification side, splitting at whitespace. -/
def splitPred (p : Char → Bool) : List Char → List (List Char)
  | [] => [[]]
  | c :: rest =>
    match splitPred p rest with
    | [] => if p c then [[], []] else [[c]]
    | h :: t => if p c then [] :: h :: t else (c :: h) :: t

/-- Split at each non-overlapping occurrence of two consecutive spaces,
scanning left to right: model of Python `line.split("  ")`. -/
def splitSub2 : List Char → List (List Char)
  | [] => [[]]
  | ' ' :: ' ' :: rest => [] :: splitSub2 rest
  | c :: rest =>
    match splitSub2 rest with
    | [] => [[c]]
    | h :: t => (c :: h) :: t

/-- Join chunks with single spaces: model of `' '.join(...)`. -/
def joinSp : List (List Char) → List Char
  | [] => []
  | [x] => x
  | x :: xs => x ++ ' ' :: joinSp xs

/-! ## URL parsing: model of `urllib.parse.urlparse`

The crawler calls `urlparse` (through `normalize_url`, `get_domain`,
`is_valid_url`) and `urljoin`.  The model below follows CPython's
`urllib.parse`: an optional scheme (letters/digits/`+`/`-`/`.` before the
first `:`, lowercased), an authority only after a literal `//`, then the
fragment split at the first `#`, the query at the first `?`, and path
parameters split at the first `;` inside the last path segment. -/

structure UrlParts where
  scheme : List Char
  netloc : List Char
  path : List Char
  params : List Char
  query : List Char
  fragment : List Char
deriving DecidableEq

def isSchemeChar (c : Char) : Bool :=
  c.isAlpha || c.isDigit || c = '+' || c = '-' || c = '.'

/-- Split off a scheme as CPython's `urlsplit` does: the text before the first
`:` qualifies when it is nonempty, starts with a letter and consists of scheme
characters; it is returned lowercased.  Otherwise the input is unchanged. -/
def splitScheme (s : List Char) : List Char × List Char :=
  if s.dropWhile (· ≠ ':') = [] then ([], s)
  else if s.takeWhile (· ≠ ':') ≠ [] && (s.takeWhile (· ≠ ':')).all isSchemeChar &&
      ((s.takeWhile (· ≠ ':')).headD '0').isAlpha then
    ((s.takeWhile (· ≠ ':')).map Char.toLower, (s.dropWhile (· ≠ ':')).drop 1)
  else ([], s)

def netlocEnd (c : Char) : Bool := c = '/' || c = '?' || c = '#'

/-- The authority component: only present after a literal `//`, extending to
the first `/`, `?` or `#`. -/
def splitNetloc (s : List Char) : List Char × List Char :=
  if startsWithList "//".data s then
    ((s.drop 2).takeWhile (fun c => !netlocEnd c), (s.drop 2).dropWhile (fun c => !netlocEnd c))
  else ([], s)

/-- The final segment of a path: everything after the last `/` (the whole
path when it has no `/`). -/
def lastSeg (p : List Char) : List Char := (p.reverse.takeWhile (· ≠ '/')).reverse

/-- Everything up to and including the last `/` of a path. -/
def upToSlash (p : List Char) : List Char := (p.reverse.dropWhile (· ≠ '/')).reverse

/-- Model of `urllib.parse._splitparams`: split at the first `;` occurring in
the last path segment (after the last `/`), or anywhere when the path has no
`/`; no split when there is no such `;`. -/
def splitParams (p : List Char) : List Char × List Char :=
  if ';' ∈ p then
    if '/' ∈ p then
      if ';' ∈ lastSeg p then
        (upToSlash p ++ (splitFirst ';' (lastSeg p)).1, (splitFirst ';' (lastSeg p)).2)
      else (p, [])
    else splitFirst ';' p
  else (p, [])

/-- Model of `urllib.parse.urlparse` (scheme, netloc, path, params, query,
fragment).  Bracketed IPv6 authority validation is not modelled; no claim
exercises it. -/
def urlparseChars (s : List Char) : UrlParts :=
  ⟨(splitScheme s).1,
   (splitNetloc (splitScheme s).2).1,
   (splitParams (splitFirst '?' (splitFirst '#' (splitNetloc (splitScheme s).2).2).1).1).1,
   (splitParams (splitFirst '?' (splitFirst '#' (splitNetloc (splitScheme s).2).2).1).1).2,
   (splitFirst '?' (splitFirst '#' (splitNetloc (splitScheme s).2).2).1).2,
   (splitFirst '#' (splitNetloc (splitScheme s).2).2).2⟩

/-! ## Model of the `validators.url` check combined with the explicit scheme
and netloc checks of `URLValidator.is_valid_url`. -/

def hostChar (c : Char) : Bool := c.isAlphanum || c = '-' || c = '.'

/-- Host, optionally followed by `:` and a nonempty numeric port.  This
approximates the `validators.url` authority pattern: it accepts a superset of
real hostnames (no TLD or label-structure checks, no userinfo) but, like the
real regex, rejects whitespace and URL delimiters inside the authority. -/
def validNetloc (nl : List Char) : Bool :=
  if ':' ∈ nl then
    (splitFirst ':' nl).1 ≠ [] && ((splitFirst ':' nl).1).all hostChar &&
      (splitFirst ':' nl).2 ≠ [] && ((splitFirst ':' nl).2).all Char.isDigit
  else nl ≠ [] && nl.all hostChar

/-- Model of `URLValidator.is_valid_url`: the `validators.url` regex demands a
scheme, an authority and no whitespace anywhere after it (`\S*`), and the
method additionally requires scheme `http`/`https` and a nonempty netloc. -/
def isValidUrlChars (s : List Char) : Bool :=
  ((urlparseChars s).scheme = "http".data || (urlparseChars s).scheme = "https".data) &&
    validNetloc (urlparseChars s).netloc &&
    (urlparseChars s).path.all (fun c => !c.isWhitespace) &&
    (urlparseChars s).params.all (fun c => !c.isWhitespace) &&
    (urlparseChars s).query.all (fun c => !c.isWhitespace) &&
    (urlparseChars s).fragment.all (fun c => !c.isWhitespace)

/-- `URLValidator.is_valid_url`. -/
def is_valid_url (s : String) : Bool := isValidUrlChars s.data

/-- The scheme-defaulting step of `normalize_url`: prepend `https://` when the
(stripped) URL does not already start with `http://` or `https://`. -/
def withScheme (t : List Char) : List Char :=
  if startsWithList "http://".data t || startsWithList "https://".data t then t
  else "https://".data ++ t

/-- The f-string reconstruction of `normalize_url`: scheme, netloc, path, and
the query when nonempty — params and fragment are dropped. -/
def reconstructBase (p : UrlParts) : List Char :=
  p.scheme ++ "://".data ++ p.netloc ++ p.path ++
    (if p.query ≠ [] then '?' :: p.query else [])

/-- List-level body of `URLValidator.normalize_url`: strip, prepend `https://`
when no `http://`/`https://` is present, parse, rebuild from scheme, netloc,
path and (when nonempty) query — dropping params and fragment — and validate. -/
def normalizeChars (s : List Char) : Option (List Char) :=
  if isValidUrlChars (reconstructBase (urlparseChars (withScheme (trimChars s)))) then
    some (reconstructBase (urlparseChars (withScheme (trimChars s))))
  else none

/-- `URLValidator.normalize_url`; `none` models Python's `None` return, and an
empty input is rejected up front (`if not url`). -/
def normalize_url (s : String) : Option String :=
  if s = "" then none
  else (normalizeChars s.data).map String.mk

/-- `URLValidator.get_domain`: the netloc when nonempty, else `None`. -/
def get_domain (s : String) : Option String :=
  let nl := (urlparseChars s.data).netloc
  if nl = [] then none else some (String.mk nl)

/-- `URLValidator.is_same_domain`: both domains extracted and equal. -/
def is_same_domain (u1 u2 : String) : Bool :=
  match get_domain u1, get_domain u2 with
  | some d1, some d2 => d1 = d2
  | _, _ => false

/-- `URLValidator.clean_url`: strip, then drop one trailing `/` when the URL
has more than three `/` characters. -/
def cleanChars (s : List Char) : List Char :=
  if (trimChars s).getLast? = some '/' && decide (3 < (trimChars s).count '/') then
    (trimChars s).dropLast
  else trimChars s

def clean_url (s : String) : String := String.mk (cleanChars s.data)

/-! ## Model of `urllib.parse.urljoin`

Restricted to the http/https base URLs this crawler produces.  Dot-segment
(`.`/`..`) resolution is not modelled (no claim exercises it); relative
references are resolved against scheme, authority and the base path up to its
last `/`, following RFC 3986 as CPython implements it for the remaining
cases. -/

def unsplitBase (p : UrlParts) : List Char :=
  p.scheme ++ "://".data ++ p.netloc ++ p.path ++
    (if p.params ≠ [] then ';' :: p.params else []) ++
    (if p.query ≠ [] then '?' :: p.query else [])

def urljoinChars (base rel : List Char) : List Char :=
  if base = [] then rel
  else if rel = [] then base
  else
    let bp := urlparseChars base
    let sr := splitScheme rel
    if sr.1 ≠ [] && sr.1 ≠ bp.scheme then rel
    else
      let rb := if sr.1 = [] then rel else sr.2
      let bpath := bp.path ++ (if bp.params ≠ [] then ';' :: bp.params else [])
      if startsWithList "//".data rb then bp.scheme ++ ':' :: rb
      else if rb = [] then unsplitBase bp
      else if rb.headD '0' = '/' then bp.scheme ++ "://".data ++ bp.netloc ++ rb
      else if rb.headD '0' = '?' then bp.scheme ++ "://".data ++ bp.netloc ++ bpath ++ rb
      else if rb.headD '0' = '#' then unsplitBase bp ++ rb
      else
        let dir := if '/' ∈ bpath then (bpath.reverse.dropWhile (· ≠ '/')).reverse else ['/']
        bp.scheme ++ "://".data ++ bp.netloc ++ dir ++ rb

/-- `URLValidator.make_absolute_url`: resolve against the base and keep the
result only when it passes `is_valid_url`. -/
def make_absolute_url (base rel : String) : Option String :=
  let a := urljoinChars base.data rel.data
  if isValidUrlChars a then some (String.mk a) else none

/-! ## HTML documents

Parsed pages (BeautifulSoup trees) are modelled as forests of element/text
nodes.  The mutual `HNode`/`HForest` encoding keeps every function below
structurally recursive, so concrete pages evaluate by `decide`/`rfl`. -/

mutual
inductive HNode where
  | text (s : String)
  | elem (tag : String) (attrs : List (String × String)) (children : HForest)
inductive HForest where
  | nil
  | cons (n : HNode) (f : HForest)
end

mutual
/-- Model of BeautifulSoup `get_text()` (default separator): concatenation of
all string descendants in document order. -/
def nodeGetText : HNode → List Char
  | .text s => s.data
  | .elem _ _ ch => forestGetText ch
def forestGetText : HForest → List Char
  | .nil => []
  | .cons n f => nodeGetText n ++ forestGetText f
end

mutual
/-- Model of `soup.find(tag)`: first element with the given tag in pre-order
document order (text nodes never match). -/
def findElemN (t : String) : HNode → Option HNode
  | .text _ => none
  | .elem tg attrs ch =>
    if tg = t then some (.elem tg attrs ch) else findElemF t ch
def findElemF (t : String) : HForest → Option HNode
  | .nil => none
  | .cons n f =>
    match findElemN t n with
    | some r => some r
    | none => findElemF t f
end

/-- Model of BeautifulSoup `Tag.string`: the single string child, descending
through a single element child, `None` otherwise. -/
def nodeString : HNode → Option String
  | .text s => some s
  | .elem _ _ (.cons c .nil) => nodeString c
  | .elem _ _ _ => none

mutual
/-- Model of `soup.find_all('a', href=True)` followed by `anchor['href']`:
the `href` attribute of every anchor element, in pre-order document order. -/
def hrefsN : HNode → List String
  | .text _ => []
  | .elem tg attrs ch =>
    (if tg = "a" then
      match attrs.lookup "href" with
      | some h => [h]
      | none => []
     else []) ++ hrefsF ch
def hrefsF : HForest → List String
  | .nil => []
  | .cons n f => hrefsN n ++ hrefsF f
end

/-- Model of `element.decompose()` applied to every element whose tag is in
`bad` (as `soup(['script', ...])` finds them): the element and its whole
subtree are removed. -/
def stripTagsF (bad : List String) : HForest → HForest
  | .nil => .nil
  | .cons (.text s) f => .cons (.text s) (stripTagsF bad f)
  | .cons (.elem tg attrs ch) f =>
    if tg ∈ bad then stripTagsF bad f
    else .cons (.elem tg attrs (stripTagsF bad ch)) (stripTagsF bad f)

/-! ## The content extractor (`WebScraper._extract_*`) -/

def badTags : List String := ["script", "style", "nav", "footer", "header", "aside"]

/-- `WebScraper._extract_title`: if a title element exists, its `.string`
stripped (empty when `.string` is `None` or empty — BeautifulSoup tags are
truthy, so an empty title element does not fall through); else the first
h1's text stripped; else the literal `"Untitled"`. -/
def extract_title (doc : HForest) : String :=
  match findElemF "title" doc with
  | some t =>
    match nodeString t with
    | some s => if s = "" then "" else String.mk (trimChars s.data)
    | none => ""
  | none =>
    match findElemF "h1" doc with
    | some h => String.mk (trimChars (nodeGetText h))
    | none => "Untitled"

def isLineBreak (c : Char) : Bool := c = '\n' || c = '\r'

/-- The whitespace cleanup of `WebScraper._extract_content`: split into lines,
strip each line, split each line at double spaces, strip each phrase, and join
the nonempty phrases with single spaces.  (`str.splitlines` treats `\r\n` as
one break where this model yields an extra empty piece; empty pieces are
filtered out, so the result is identical.) -/
def cleanTextChars (s : List Char) : List Char :=
  joinSp ((((splitPred isLineBreak s).map trimChars).flatMap
    (fun l => (splitSub2 l).map trimChars)).filter (· ≠ []))

/-- `WebScraper._extract_content`: decompose script/style/nav/footer/header/
aside elements, take the text, and clean its whitespace. -/
def extract_content (doc : HForest) : String :=
  String.mk (cleanTextChars (forestGetText (stripTagsF badTags doc)))

/-- The skip test of `_extract_links`:
`href.startswith(('#', 'javascript:', 'mailto:', 'tel:'))`. -/
def skippedHref (h : String) : Bool :=
  startsWithList "#".data h.data || startsWithList "javascript:".data h.data ||
    startsWithList "mailto:".data h.data || startsWithList "tel:".data h.data

/-- The accumulator loop of `_extract_links`: keep hrefs that are not skipped
and resolve to a valid absolute URL, first occurrence only, in order. -/
def linksLoop (base : String) : List String → List String → List String
  | [], acc => acc
  | h :: rest, acc =>
    if skippedHref h then linksLoop base rest acc
    else
      match make_absolute_url base h with
      | some a => if a ∈ acc then linksLoop base rest acc else linksLoop base rest (acc ++ [a])
      | none => linksLoop base rest acc

/-- `WebScraper._extract_links`. -/
def extract_links (doc : HForest) (base_url : String) : List String :=
  linksLoop base_url (hrefsF doc) []

/-! ## The crawl controller (`WebScraper`) -/

/-- `ScrapedPage` (the `metadata` dictionary and the float `timestamp` are
omitted; no claim concerns them). -/
structure ScrapedPage where
  url : String
  title : String
  content : String
  links : List String
  depth : Nat
deriving DecidableEq

/-- The two crawl limits of `WebScraper.__init__` (timeout, delay and
user-agent only affect I/O timing and are not modelled). -/
structure CrawlConfig where
  max_depth : Nat
  max_pages : Nat

/-- The session state held on the `WebScraper` instance: `visited_urls`
(a Python set, modelled as its insertion-ordered list of distinct elements)
and `scraped_pages`.  `fetched` is ghost instrumentation recording every URL
for which an HTTP GET was issued, in order; the source has no such variable,
and no decision of the model depends on it. -/
structure CrawlState where
  visited : List String
  results : List ScrapedPage
  fetched : List String
deriving DecidableEq

/-- `WebScraper._scrape_page`: fetch (`web url = none` models every request
or parse failure, returning `None`), then extract title from the full tree,
and content and links from the tree with the bad tags decomposed —
`_extract_content` mutates the shared soup, so `_extract_links` sees the
stripped tree. -/
def scrape_page (web : String → Option HForest) (url : String) (depth : Nat) :
    Option ScrapedPage :=
  match web url with
  | none => none
  | some doc =>
    some ⟨url, extract_title doc, extract_content doc,
      extract_links (stripTagsF badTags doc) url, depth⟩

/-- The `for link in scraped_page.links` loop of `_crawl_recursive`, with the
recursive descent abstracted as `recur`: stop the loop as soon as the page
budget is reached, follow same-domain links, skip the rest.  (The `break` is
modelled by re-testing the budget at each link, which yields the same state.) -/
def crawlLinksWith (cfg : CrawlConfig) (url : String)
    (recur : String → CrawlState → CrawlState) :
    List String → CrawlState → CrawlState
  | [], st => st
  | l :: ls, st =>
    if cfg.max_pages ≤ st.results.length then st
    else if is_same_domain url l then crawlLinksWith cfg url recur ls (recur l st)
    else crawlLinksWith cfg url recur ls st

/-- `WebScraper._crawl_recursive`: depth and budget guards, clean the URL,
skip if visited, mark visited (and record the fetch) before fetching, then on
success append the page and walk its links at `depth + 1`. -/
def crawl_recursive (cfg : CrawlConfig) (web : String → Option HForest)
    (url : String) (depth : Nat) (st : CrawlState) : CrawlState :=
  if hdep : cfg.max_depth < depth then st
  else if cfg.max_pages ≤ st.results.length then st
  else if clean_url url ∈ st.visited then st
  else
    match scrape_page web (clean_url url) depth with
    | none => ⟨st.visited ++ [clean_url url], st.results, st.fetched ++ [clean_url url]⟩
    | some page =>
      crawlLinksWith cfg (clean_url url) (fun l st2 => crawl_recursive cfg web l (depth + 1) st2)
        page.links
        ⟨st.visited ++ [clean_url url], st.results ++ [page], st.fetched ++ [clean_url url]⟩
termination_by cfg.max_depth + 1 - depth
decreasing_by omega

/-- `WebScraper.scrape_website`: normalize the seed; on failure raise
`ValueError(f"Invalid URL: ...")` before touching the session state (`prior`
is the state left over on the instance); on success reset the state and crawl
from depth 0, returning the scraped pages. -/
def scrape_website (cfg : CrawlConfig) (web : String → Option HForest)
    (prior : CrawlState) (start_url : String) :
    Except String (List ScrapedPage) × CrawlState :=
  match normalize_url start_url with
  | none => (Except.error ("Invalid URL: " ++ start_url), prior)
  | some nu =>
    let st := crawl_recursive cfg web nu 0 ⟨[], [], []⟩
    (Except.ok st.results, st)

/-! ## Specification-side definitions -/

/-- Modelled from the spec: the title rule as §4.3 states it — "page title
element text if non-empty; else first heading-level-1 text; else the literal
Untitled".  To be compared with `extract_title`. -/
def specTitle (doc : HForest) : String :=
  let titleText :=
    match findElemF "title" doc with
    | some t => String.mk (trimChars (nodeGetText t))
    | none => ""
  if titleText ≠ "" then titleText
  else
    match findElemF "h1" doc with
    | some h => String.mk (trimChars (nodeGetText h))
    | none => "Untitled"

/-- Modelled from the spec: "collapse all whitespace runs … into single
spaces; join into one string" — every maximal whitespace run becomes a single
space and outer whitespace disappears.  To be compared with the code's
cleanup in `cleanTextChars`. -/
def specCollapse (s : List Char) : List Char :=
  joinSp ((splitPred Char.isWhitespace s).filter (· ≠ []))

/-- Modelled from the spec: content extraction as §4.3 states it — remove the
non-content elements, take the text, collapse all whitespace runs. -/
def specContent (doc : HForest) : String :=
  String.mk (specCollapse (forestGetText (stripTagsF badTags doc)))

/-- Modelled from the spec: the per-href link rule of §4.3 — skip fragment,
`javascript:`, `mailto:` and `tel:` targets, resolve the rest via the URL
Normalizer keeping only valid results. -/
def resolveHref (base h : String) : Option String :=
  if skippedHref h then none else make_absolute_url base h

/-- Modelled from the spec: "within-page-unique results, preserving document
order" — keep the first occurrence of each URL. -/
def dedupKeepFirst (l : List String) : List String :=
  l.foldl (fun ac a => if a ∈ ac then ac else ac ++ [a]) []

/-- The three-anchor example page of §8 of the spec. -/
def linkExampleDoc : HForest :=
  .cons (.elem "a" [("href", "#top")] .nil)
    (.cons (.elem "a" [("href", "mailto:x@y.com")] .nil)
      (.cons (.elem "a" [("href", "/about")] .nil) .nil))

/-- A page whose title element is empty while an h1 is present. -/
def emptyTitleDoc : HForest :=
  .cons (.elem "title" [] .nil)
    (.cons (.elem "h1" [] (.cons (.text "Heading") .nil)) .nil)

/-- The invariant package of C1. -/
def SessionInv (cfg : CrawlConfig) (st : CrawlState) : Prop :=
  st.visited.Nodup ∧ (∀ p ∈ st.results, p.url ∈ st.visited) ∧
    st.results.length ≤ cfg.max_pages ∧ ∀ p ∈ st.results, p.depth ≤ cfg.max_depth

/-- The invariant package of C3: the ghost fetch trace never repeats a URL,
every fetched URL was marked visited (before the fetch), and the visited set
stays duplicate-free. -/
def FetchInv (st : CrawlState) : Prop :=
  st.fetched.Nodup ∧ (∀ u ∈ st.fetched, u ∈ st.visited) ∧ st.visited.Nodup

/-- The invariant package of C5 and C10: every visited URL and every result
URL is valid and lies on the host `hdom`. -/
def DomValidInv (hdom : String) (st : CrawlState) : Prop :=
  (∀ v ∈ st.visited, is_valid_url v = true ∧ get_domain v = some hdom) ∧
    (∀ p ∈ st.results, is_valid_url p.url = true ∧ get_domain p.url = some hdom)

/-- Modelled from the spec (§4.4, step 7): the per-page link sweep of the
depth-first traversal — for each outbound link in document order, if the
same-domain test holds and the page budget is not exhausted, recurse; the
state is the pair (visited list, result-URL order). -/
def dfsLinks (cfg : CrawlConfig) (cur : String)
    (recur : String → List String × List String → List String × List String) :
    List String → List String × List String → List String × List String
  | [], vo => vo
  | l :: ls, vo =>
    if cfg.max_pages ≤ vo.2.length then vo
    else if is_same_domain cur l then dfsLinks cfg cur recur ls (recur l vo)
    else dfsLinks cfg cur recur ls vo

/-- Modelled from the spec (§4.4): depth-first recursive expansion in link
order over an abstract link graph `g` (`g u = none` is a fetch or extraction
failure), with the stopping conditions checked before each expansion — depth
beyond `max_depth` stops the branch, a full page budget stops the traversal,
a cleaned URL already visited is skipped, the URL is marked visited before
fetching, a successful page is appended to the order, and its links are then
expanded immediately at `depth + 1`, each fully before its next sibling.  To
be compared with `crawl_recursive`. -/
def dfsSpec (cfg : CrawlConfig) (g : String → Option (List String))
    (url : String) (depth : Nat) (vo : List String × List String) :
    List String × List String :=
  if hdep : cfg.max_depth < depth then vo
  else if cfg.max_pages ≤ vo.2.length then vo
  else if clean_url url ∈ vo.1 then vo
  else
    match g (clean_url url) with
    | none => (vo.1 ++ [clean_url url], vo.2)
    | some ls =>
      dfsLinks cfg (clean_url url) (fun l vo2 => dfsSpec cfg g l (depth + 1) vo2) ls
        (vo.1 ++ [clean_url url], vo.2 ++ [clean_url url])
termination_by cfg.max_depth + 1 - depth
decreasing_by omega

/-- The link graph that the crawler actually explores: the links a fetched
and parsed page offers, after the bad tags are stripped. -/
def pageGraph (web : String → Option HForest) (u : String) : Option (List String) :=
  (web u).map (fun doc => extract_links (stripTagsF badTags doc) u)

/-- A four-page site on one host: the root links to `/a` and `/b`, and `/a`
links on to `/a1` — so a depth-first crawl must scrape `/a1` before `/b`. -/
def dfsExampleWeb : String → Option HForest := fun u =>
  if u = "https://x.com" then
    some (.cons (.elem "a" [("href", "/a")] .nil)
      (.cons (.elem "a" [("href", "/b")] .nil) .nil))
  else if u = "https://x.com/a" then
    some (.cons (.elem "a" [("href", "/a1")] .nil) .nil)
  else if u = "https://x.com/a1" then some .nil
  else if u = "https://x.com/b" then some .nil
  else none

/-- Strip trailing — but not leading — whitespace: the tail half of
`trimChars`, used to reason about the per-phrase strips of the content
cleanup. -/
def trimTrail (s : List Char) : List Char :=
  (s.reverse.dropWhile Char.isWhitespace).reverse

/-- The per-line phrase cleanup of `_extract_content`: split the line at
double spaces, strip each phrase, drop the empty ones. -/
def chunks2 (s : List Char) : List (List Char) :=
  ((splitSub2 s).map trimChars).filter (· ≠ [])

/-- The whitespace words of a string: its maximal nonempty runs of
non-whitespace characters, in order. -/
def wordsWs (s : List Char) : List (List Char) :=
  (splitPred Char.isWhitespace s).filter (· ≠ [])

/-- Prefix a nonempty continuation with the joining space. -/
def sepSp (s : List Char) : List Char :=
  if s = [] then [] else ' ' :: s

/-! ## Helper lemmas -/

theorem linksLoop_eq_foldl (base : String) :
    ∀ hs acc, linksLoop base hs acc =
      (hs.filterMap (resolveHref base)).foldl
        (fun ac a => if a ∈ ac then ac else ac ++ [a]) acc := by
  intro hs
  induction hs with
  | nil => intro acc; rfl
  | cons h rest ih =>
    intro acc
    by_cases hskip : skippedHref h
    · simp [linksLoop, hskip, List.filterMap_cons, resolveHref, ih]
    · cases habs : make_absolute_url base h with
      | none => simp [linksLoop, hskip, habs, List.filterMap_cons, resolveHref, ih]
      | some a =>
        by_cases hmem : a ∈ acc
        · simp [linksLoop, hskip, habs, hmem, List.filterMap_cons, resolveHref, ih]
        · simp [linksLoop, hskip, habs, hmem, List.filterMap_cons, resolveHref, ih]

theorem scrape_page_some (web : String → Option HForest) (url : String) (depth : Nat)
    (page : ScrapedPage) (h : scrape_page web url depth = some page) :
    page.url = url ∧ page.depth = depth ∧
      ∃ doc, web url = some doc ∧
        page.links = extract_links (stripTagsF badTags doc) url := by
  cases hw : web url with
  | none => rw [scrape_page, hw] at h; cases h
  | some doc =>
    rw [scrape_page, hw] at h
    cases h
    exact ⟨rfl, rfl, doc, rfl, rfl⟩

/-- Preservation through the link loop, assuming preservation only for the
links that are actually followed (members that pass the same-domain test). -/
theorem crawlLinksWith_pres (cfg : CrawlConfig) (url : String)
    (recur : String → CrawlState → CrawlState) (Q : CrawlState → Prop)
    (ls : List String)
    (hrec : ∀ l ∈ ls, is_same_domain url l = true → ∀ st, Q st → Q (recur l st)) :
    ∀ st, Q st → Q (crawlLinksWith cfg url recur ls st) := by
  induction ls with
  | nil => intro st h; exact h
  | cons l ls ih =>
    intro st h
    unfold crawlLinksWith
    split
    · exact h
    · split
      · rename_i hdom
        exact ih (fun x hx hdx => hrec x (List.mem_cons_of_mem l hx) hdx) _
          (hrec l (List.mem_cons_self l ls) hdom st h)
      · exact ih (fun x hx hdx => hrec x (List.mem_cons_of_mem l hx) hdx) _ h

/-- Generic preservation through a whole recursive crawl: any state predicate
closed under the two state transitions of `_crawl_recursive` (mark-and-fail,
mark-and-append) is an invariant of the crawl. -/
theorem crawl_recursive_pres (cfg : CrawlConfig) (web : String → Option HForest)
    (Q : CrawlState → Prop)
    (hfail : ∀ st u, u ∉ st.visited → Q st →
      Q ⟨st.visited ++ [u], st.results, st.fetched ++ [u]⟩)
    (hstep : ∀ st u depth page, ¬ cfg.max_depth < depth →
      st.results.length < cfg.max_pages → u ∉ st.visited →
      scrape_page web u depth = some page → Q st →
      Q ⟨st.visited ++ [u], st.results ++ [page], st.fetched ++ [u]⟩)
    (url : String) (depth : Nat) (st : CrawlState) (h : Q st) :
    Q (crawl_recursive cfg web url depth st) := by
  rw [crawl_recursive]
  split
  · exact h
  · rename_i hdep
    split
    · exact h
    · rename_i hbud
      split
      · exact h
      · rename_i hvis
        cases hsp : scrape_page web (clean_url url) depth with
        | none =>
          simp only [hsp]
          exact hfail st (clean_url url) hvis h
        | some page =>
          simp only [hsp]
          exact crawlLinksWith_pres cfg (clean_url url) _ Q page.links
            (fun l _ _ st2 h2 => crawl_recursive_pres cfg web Q hfail hstep l (depth + 1) st2 h2)
            _ (hstep st (clean_url url) depth page hdep (Nat.lt_of_not_le hbud) hvis hsp h)
termination_by cfg.max_depth + 1 - depth
decreasing_by omega

theorem sessionInv_preserved (cfg : CrawlConfig) (web : String → Option HForest) :
    ∀ url depth st, SessionInv cfg st →
      SessionInv cfg (crawl_recursive cfg web url depth st) := by
  apply crawl_recursive_pres
  · intro st u hu h
    obtain ⟨hnd, hmem, hlen, hdep⟩ := h
    refine ⟨?_, ?_, hlen, hdep⟩
    · simp [List.nodup_append, hnd, hu]
    · intro p hp
      exact List.mem_append_left _ (hmem p hp)
  · intro st u depth page hdep hbud hu hsp h
    obtain ⟨hnd, hmem, hlen, hdepth⟩ := h
    obtain ⟨hurl, hpd, -⟩ := scrape_page_some web u depth page hsp
    refine ⟨?_, ?_, ?_, ?_⟩
    · simp [List.nodup_append, hnd, hu]
    · intro p hp
      rcases List.mem_append.mp hp with hp | hp
      · exact List.mem_append_left _ (hmem p hp)
      · rw [List.mem_singleton.mp hp, hurl]
        exact List.mem_append_right _ (List.mem_singleton_self u)
    · simp only [List.length_append, List.length_singleton]
      omega
    · intro p hp
      rcases List.mem_append.mp hp with hp | hp
      · exact hdepth p hp
      · rw [List.mem_singleton.mp hp, hpd]
        omega

theorem fetchInv_preserved (cfg : CrawlConfig) (web : String → Option HForest) :
    ∀ url depth st, FetchInv st → FetchInv (crawl_recursive cfg web url depth st) := by
  apply crawl_recursive_pres
  · intro st u hu h
    obtain ⟨hnd, hsub, hvn⟩ := h
    refine ⟨?_, ?_, ?_⟩
    · simp only [List.nodup_append, List.nodup_singleton, true_and]
      exact ⟨hnd, by simpa using fun hf => hu (hsub u hf)⟩
    · intro x hx
      rcases List.mem_append.mp hx with hx | hx
      · exact List.mem_append_left _ (hsub x hx)
      · rw [List.mem_singleton.mp hx]
        exact List.mem_append_right _ (List.mem_singleton_self u)
    · simp [List.nodup_append, hvn, hu]
  · intro st u depth page _ _ hu hsp h
    obtain ⟨hnd, hsub, hvn⟩ := h
    refine ⟨?_, ?_, ?_⟩
    · simp only [List.nodup_append, List.nodup_singleton, true_and]
      exact ⟨hnd, by simpa using fun hf => hu (hsub u hf)⟩
    · intro x hx
      rcases List.mem_append.mp hx with hx | hx
      · exact List.mem_append_left _ (hsub x hx)
      · rw [List.mem_singleton.mp hx]
        exact List.mem_append_right _ (List.mem_singleton_self u)
    · simp [List.nodup_append, hvn, hu]

/-! ## List-splitting lemmas -/

theorem takeWhile_app_of_all {p : Char → Bool} {a : List Char} (b : List Char)
    (h : ∀ c ∈ a, p c = true) : (a ++ b).takeWhile p = a ++ b.takeWhile p := by
  induction a with
  | nil => simp
  | cons x xs ih =>
    simp only [List.cons_append, List.takeWhile_cons, h x (List.mem_cons_self x xs), if_true]
    rw [ih (fun c hc => h c (List.mem_cons_of_mem x hc))]

theorem dropWhile_app_of_all {p : Char → Bool} {a : List Char} (b : List Char)
    (h : ∀ c ∈ a, p c = true) : (a ++ b).dropWhile p = b.dropWhile p := by
  induction a with
  | nil => simp
  | cons x xs ih =>
    simp only [List.cons_append, List.dropWhile_cons, h x (List.mem_cons_self x xs), if_true]
    exact ih (fun c hc => h c (List.mem_cons_of_mem x hc))

theorem dropWhile_of_all_false {p : Char → Bool} {s : List Char}
    (h : ∀ c ∈ s, p c = false) : s.dropWhile p = s := by
  cases s with
  | nil => rfl
  | cons x xs => simp [List.dropWhile_cons, h x (List.mem_cons_self x xs)]

theorem dropWhile_head_false {p : Char → Bool} {s : List Char} {d : Char} {t : List Char}
    (h : s.dropWhile p = d :: t) : p d = false := by
  induction s with
  | nil => cases h
  | cons x xs ih =>
    rw [List.dropWhile_cons] at h
    by_cases hx : p x = true
    · rw [if_pos hx] at h
      exact ih h
    · rw [if_neg hx] at h
      injection h with h1 h2
      subst h1
      exact Bool.eq_false_iff.mpr hx

theorem dropWhile_shape {p : Char → Bool} (s : List Char) :
    s.dropWhile p = [] ∨ ∃ d t, s.dropWhile p = d :: t ∧ p d = false := by
  cases hd : s.dropWhile p with
  | nil => exact Or.inl rfl
  | cons d t => exact Or.inr ⟨d, t, rfl, dropWhile_head_false hd⟩

theorem mem_dropWhile_ne_nil {p : Char → Bool} {s : List Char} {a : Char}
    (ha : a ∈ s) (hpa : p a = false) : s.dropWhile p ≠ [] := by
  induction s with
  | nil => cases ha
  | cons x xs ih =>
    rw [List.dropWhile_cons]
    by_cases hx : p x = true
    · rw [if_pos hx]
      rcases List.mem_cons.mp ha with rfl | hmem
      · rw [hx] at hpa; cases hpa
      · exact ih hmem
    · rw [if_neg hx]
      simp

theorem takeWhile_head? {p : Char → Bool} (s : List Char) :
    s.takeWhile p = [] ∨ (s.takeWhile p).head? = s.head? := by
  cases s with
  | nil => exact Or.inl rfl
  | cons x xs =>
    rw [List.takeWhile_cons]
    by_cases hx : p x = true
    · exact Or.inr (by rw [if_pos hx]; rfl)
    · exact Or.inl (by rw [if_neg hx])

theorem head?_app_left {a : List Char} (b : List Char) (h : a ≠ []) :
    (a ++ b).head? = a.head? := by
  cases a with
  | nil => cases h rfl
  | cons x xs => rfl

theorem splitFirst_not_mem {c : Char} {s : List Char} (h : c ∉ s) : splitFirst c s = (s, []) := by
  unfold splitFirst
  have h1 : s.takeWhile (· ≠ c) = s :=
    List.takeWhile_eq_self_iff.mpr (fun x hx => by
      simp only [ne_eq, decide_eq_true_eq]
      exact fun e => h (e ▸ hx))
  have h2 : s.dropWhile (· ≠ c) = [] := by
    rw [List.dropWhile_eq_nil_iff]
    intro x hx
    simp only [ne_eq, decide_eq_true_eq]
    exact fun e => h (e ▸ hx)
  rw [h1, h2]
  rfl

theorem splitFirst_append {c : Char} {a : List Char} (b : List Char) (h : c ∉ a) :
    splitFirst c (a ++ c :: b) = (a, b) := by
  unfold splitFirst
  have hall : ∀ x ∈ a, (decide (x ≠ c)) = true := fun x hx => by
    simp only [decide_eq_true_eq]
    exact fun e => h (e ▸ hx)
  rw [takeWhile_app_of_all _ hall, dropWhile_app_of_all _ hall]
  simp [List.takeWhile_cons, List.dropWhile_cons]

theorem splitFirst_recon (c : Char) (s : List Char) :
    ∃ mid, s = (splitFirst c s).1 ++ mid ∧ (mid = [] ∨ mid = c :: (splitFirst c s).2) ∧
      c ∉ (splitFirst c s).1 := by
  refine ⟨s.dropWhile (· ≠ c), ?_, ?_, ?_⟩
  · unfold splitFirst
    rw [List.takeWhile_append_dropWhile]
  · rcases dropWhile_shape (p := (· ≠ c)) s with hnil | ⟨d, t, hdt, hd⟩
    · exact Or.inl hnil
    · have hdc : d = c := by simpa using hd
      subst hdc
      refine Or.inr ?_
      rw [hdt]
      unfold splitFirst
      rw [hdt]
      rfl
  · intro hc
    have := List.mem_takeWhile_imp hc
    simp at this

theorem mem_splitFirst_fst {c x : Char} {s : List Char} (h : x ∈ (splitFirst c s).1) : x ∈ s :=
  (List.takeWhile_sublist _).subset h

theorem mem_splitFirst_snd {c x : Char} {s : List Char} (h : x ∈ (splitFirst c s).2) : x ∈ s :=
  (List.dropWhile_sublist _).subset ((List.drop_sublist _ _).subset h)

theorem not_mem_splitFirst_fst (c : Char) (s : List Char) : c ∉ (splitFirst c s).1 := by
  intro hc
  have := List.mem_takeWhile_imp hc
  simp at this

/-! ## `lastSeg`, `upToSlash` and `splitParams` lemmas -/

theorem upToSlash_lastSeg (p : List Char) : upToSlash p ++ lastSeg p = p := by
  unfold upToSlash lastSeg
  rw [← List.reverse_append, List.takeWhile_append_dropWhile, List.reverse_reverse]

theorem lastSeg_no_slash (p : List Char) : '/' ∉ lastSeg p := by
  unfold lastSeg
  intro h
  rw [List.mem_reverse] at h
  have := List.mem_takeWhile_imp h
  simp at this

theorem mem_upToSlash {x : Char} {p : List Char} (h : x ∈ upToSlash p) : x ∈ p := by
  unfold upToSlash at h
  rw [List.mem_reverse] at h
  have := (List.dropWhile_sublist _).subset h
  rwa [List.mem_reverse] at this

theorem mem_lastSeg {x : Char} {p : List Char} (h : x ∈ lastSeg p) : x ∈ p := by
  unfold lastSeg at h
  rw [List.mem_reverse] at h
  have := (List.takeWhile_sublist _).subset h
  rwa [List.mem_reverse] at this

theorem upToSlash_shape {p : List Char} (h : '/' ∈ p) :
    ∃ w, upToSlash p = w ++ ['/'] := by
  unfold upToSlash
  have hne : p.reverse.dropWhile (· ≠ '/') ≠ [] :=
    mem_dropWhile_ne_nil (List.mem_reverse.mpr h) (by simp)
  cases hd : p.reverse.dropWhile (· ≠ '/') with
  | nil => exact absurd hd hne
  | cons d t =>
    have hdc : d = '/' := by simpa using dropWhile_head_false hd
    subst hdc
    exact ⟨t.reverse, by rw [List.reverse_cons]⟩

theorem lastSeg_append {z q : List Char} (h : '/' ∉ q) : lastSeg (z ++ '/' :: q) = q := by
  unfold lastSeg
  have hall : ∀ x ∈ q.reverse, (decide (x ≠ '/')) = true := fun x hx => by
    simp only [decide_eq_true_eq]
    exact fun e => h (e ▸ (List.mem_reverse.mp hx))
  rw [List.reverse_append, List.reverse_cons, List.append_assoc, List.singleton_append,
    takeWhile_app_of_all _ hall]
  simp [List.takeWhile_cons]

theorem splitParams_recon (x : List Char) :
    ∃ mid, x = (splitParams x).1 ++ mid ∧ (mid = [] ∨ mid = ';' :: (splitParams x).2) := by
  unfold splitParams
  by_cases h1 : ';' ∈ x
  · by_cases h2 : '/' ∈ x
    · by_cases h3 : ';' ∈ lastSeg x
      · simp only [if_pos h1, if_pos h2, if_pos h3]
        obtain ⟨mid, hmid, hcase, hnm⟩ := splitFirst_recon ';' (lastSeg x)
        rcases hcase with rfl | rfl
        · rw [List.append_nil] at hmid
          exact absurd (hmid ▸ h3) hnm
        · refine ⟨';' :: (splitFirst ';' (lastSeg x)).2, ?_, Or.inr rfl⟩
          conv_lhs => rw [← upToSlash_lastSeg x, hmid]
          rw [List.append_assoc]
      · simp only [if_pos h1, if_pos h2, if_neg h3]
        exact ⟨[], by simp, Or.inl rfl⟩
    · simp only [if_pos h1, if_neg h2]
      obtain ⟨mid, hmid, hcase, hnm⟩ := splitFirst_recon ';' x
      rcases hcase with rfl | rfl
      · rw [List.append_nil] at hmid
        exact absurd (hmid ▸ h1) hnm
      · exact ⟨';' :: (splitFirst ';' x).2, hmid, Or.inr rfl⟩
  · simp only [if_neg h1]
    exact ⟨[], by simp, Or.inl rfl⟩

theorem mem_splitParams_fst {x : Char} {p : List Char} (h : x ∈ (splitParams p).1) : x ∈ p := by
  unfold splitParams at h
  by_cases h1 : ';' ∈ p
  · by_cases h2 : '/' ∈ p
    · by_cases h3 : ';' ∈ lastSeg p
      · simp only [if_pos h1, if_pos h2, if_pos h3] at h
        rcases List.mem_append.mp h with h | h
        · exact mem_upToSlash h
        · exact mem_lastSeg (mem_splitFirst_fst h)
      · simpa only [if_pos h1, if_pos h2, if_neg h3] using h
    · simp only [if_pos h1, if_neg h2] at h
      exact mem_splitFirst_fst h
  · simpa only [if_neg h1] using h

theorem mem_splitParams_snd {x : Char} {p : List Char} (h : x ∈ (splitParams p).2) : x ∈ p := by
  unfold splitParams at h
  by_cases h1 : ';' ∈ p
  · by_cases h2 : '/' ∈ p
    · by_cases h3 : ';' ∈ lastSeg p
      · simp only [if_pos h1, if_pos h2, if_pos h3] at h
        exact mem_lastSeg (mem_splitFirst_snd h)
      · simp only [if_pos h1, if_pos h2, if_neg h3] at h
        cases h
    · simp only [if_pos h1, if_neg h2] at h
      exact mem_splitFirst_snd h
  · simp only [if_neg h1] at h
    cases h

theorem splitParams_fst_head (x : List Char) :
    (splitParams x).1 = [] ∨ ((splitParams x).1).head? = x.head? := by
  unfold splitParams
  by_cases h1 : ';' ∈ x
  · by_cases h2 : '/' ∈ x
    · by_cases h3 : ';' ∈ lastSeg x
      · simp only [if_pos h1, if_pos h2, if_pos h3]
        obtain ⟨w, hw⟩ := upToSlash_shape h2
        have hne : upToSlash x ≠ [] := by
          rw [hw]; simp
        refine Or.inr ?_
        rw [head?_app_left _ hne]
        conv_rhs => rw [← upToSlash_lastSeg x]
        rw [head?_app_left _ hne]
      · simp only [if_pos h1, if_pos h2, if_neg h3]
        exact Or.inr trivial
    · simp only [if_pos h1, if_neg h2]
      exact takeWhile_head? x
  · simp only [if_neg h1]
    exact Or.inr trivial

theorem splitParams_of_no_semi {a : List Char} (h : ';' ∉ a) : splitParams a = (a, []) := by
  unfold splitParams
  rw [if_neg h]

theorem splitParams_no_semi_lastSeg {a : List Char} (hsl : '/' ∈ a)
    (h : ';' ∉ lastSeg a) : splitParams a = (a, []) := by
  unfold splitParams
  by_cases hsemi : ';' ∈ a
  · rw [if_pos hsemi, if_pos hsl, if_neg h]
  · rw [if_neg hsemi]

theorem splitParams_idem (y : List Char) :
    splitParams ((splitParams y).1) = ((splitParams y).1, []) := by
  by_cases h1 : ';' ∈ y
  · by_cases h2 : '/' ∈ y
    · by_cases h3 : ';' ∈ lastSeg y
      · have ha : (splitParams y).1 = upToSlash y ++ (splitFirst ';' (lastSeg y)).1 := by
          unfold splitParams
          simp only [if_pos h1, if_pos h2, if_pos h3]
        obtain ⟨w, hw⟩ := upToSlash_shape h2
        have hfs : '/' ∉ (splitFirst ';' (lastSeg y)).1 := fun hm =>
          lastSeg_no_slash _ (mem_splitFirst_fst hm)
        have hshape : (splitParams y).1 = w ++ '/' :: (splitFirst ';' (lastSeg y)).1 := by
          rw [ha, hw, List.append_assoc, List.singleton_append]
        have hlseg : lastSeg ((splitParams y).1) = (splitFirst ';' (lastSeg y)).1 := by
          rw [hshape]
          exact lastSeg_append hfs
        have hslash : '/' ∈ (splitParams y).1 := by
          rw [hshape]
          exact List.mem_append_right _ (List.mem_cons_self _ _)
        refine splitParams_no_semi_lastSeg hslash ?_
        rw [hlseg]
        exact not_mem_splitFirst_fst ';' (lastSeg y)
      · have ha : (splitParams y).1 = y := by
          unfold splitParams
          simp only [if_pos h1, if_pos h2, if_neg h3]
        rw [ha]
        exact splitParams_no_semi_lastSeg h2 h3
    · have ha : (splitParams y).1 = (splitFirst ';' y).1 := by
        unfold splitParams
        simp only [if_pos h1, if_neg h2]
      rw [ha]
      exact splitParams_of_no_semi (not_mem_splitFirst_fst ';' y)
  · have ha : (splitParams y).1 = y := by
      unfold splitParams
      simp only [if_neg h1]
    rw [ha]
    exact splitParams_of_no_semi h1

/-! ## Character-class lemmas -/

theorem isWhitespace_cases {c : Char} (h : c.isWhitespace = true) :
    c = ' ' ∨ c = '\t' ∨ c = '\r' ∨ c = '\n' := by
  simpa [Char.isWhitespace, or_assoc] using h

theorem netlocEnd_cases {c : Char} (h : netlocEnd c = true) :
    c = '/' ∨ c = '?' ∨ c = '#' := by
  simpa [netlocEnd, or_assoc] using h

theorem hostChar_not_ws {c : Char} (h : hostChar c = true) : c.isWhitespace = false := by
  rcases Bool.eq_false_or_eq_true c.isWhitespace with ht | hf
  · rcases isWhitespace_cases ht with rfl | rfl | rfl | rfl <;> exact absurd h (by decide)
  · exact hf

theorem hostChar_not_end {c : Char} (h : hostChar c = true) : netlocEnd c = false := by
  rcases Bool.eq_false_or_eq_true (netlocEnd c) with ht | hf
  · rcases netlocEnd_cases ht with rfl | rfl | rfl <;> exact absurd h (by decide)
  · exact hf

theorem isSchemeChar_not_ws {c : Char} (h : isSchemeChar c = true) :
    c.isWhitespace = false := by
  rcases Bool.eq_false_or_eq_true c.isWhitespace with ht | hf
  · rcases isWhitespace_cases ht with rfl | rfl | rfl | rfl <;> exact absurd h (by decide)
  · exact hf

theorem isDigit_not_ws {c : Char} (h : c.isDigit = true) : c.isWhitespace = false := by
  rcases Bool.eq_false_or_eq_true c.isWhitespace with ht | hf
  · rcases isWhitespace_cases ht with rfl | rfl | rfl | rfl <;> exact absurd h (by decide)
  · exact hf

theorem isDigit_not_end {c : Char} (h : c.isDigit = true) : netlocEnd c = false := by
  rcases Bool.eq_false_or_eq_true (netlocEnd c) with ht | hf
  · rcases netlocEnd_cases ht with rfl | rfl | rfl <;> exact absurd h (by decide)
  · exact hf

theorem validNetloc_facts {nl : List Char} (h : validNetloc nl = true) :
    nl ≠ [] ∧ (∀ c ∈ nl, c.isWhitespace = false) ∧ (∀ c ∈ nl, netlocEnd c = false) := by
  unfold validNetloc at h
  by_cases hc : ':' ∈ nl
  · rw [if_pos hc] at h
    simp only [Bool.and_eq_true, ne_eq, decide_eq_true_eq, List.all_eq_true] at h
    obtain ⟨⟨⟨hfne, hfhost⟩, hsne⟩, hsdig⟩ := h
    have hmemcases : ∀ c ∈ nl, hostChar c = true ∨ c = ':' ∨ c.isDigit = true := by
      intro c hcm
      obtain ⟨mid, hmid, hmc, hnm⟩ := splitFirst_recon ':' nl
      rcases hmc with rfl | rfl
      · rw [List.append_nil] at hmid
        exact absurd (hmid ▸ hc) hnm
      · rw [hmid] at hcm
        rcases List.mem_append.mp hcm with hm | hm
        · exact Or.inl (hfhost c hm)
        · rcases List.mem_cons.mp hm with rfl | hm
          · exact Or.inr (Or.inl rfl)
          · exact Or.inr (Or.inr (hsdig c hm))
    refine ⟨fun hnil => (by subst hnil; cases hc), ?_, ?_⟩
    · intro c hcm
      rcases hmemcases c hcm with hh | rfl | hh
      · exact hostChar_not_ws hh
      · decide
      · exact isDigit_not_ws hh
    · intro c hcm
      rcases hmemcases c hcm with hh | rfl | hh
      · exact hostChar_not_end hh
      · decide
      · exact isDigit_not_end hh
  · rw [if_neg hc] at h
    simp only [Bool.and_eq_true, ne_eq, decide_eq_true_eq, List.all_eq_true] at h
    obtain ⟨hne, hhost⟩ := h
    exact ⟨hne, fun c hcm => hostChar_not_ws (hhost c hcm),
      fun c hcm => hostChar_not_end (hhost c hcm)⟩

/-! ## Parse-shape lemmas -/

theorem splitScheme_shape {pre : List Char} (rest : List Char) (hne : pre ≠ [])
    (hsch : pre.all isSchemeChar = true) (halpha : ((pre.headD '0').isAlpha) = true)
    (hcolon : ':' ∉ pre) :
    splitScheme (pre ++ ':' :: rest) = (pre.map Char.toLower, rest) := by
  have hall : ∀ x ∈ pre, (decide (x ≠ ':')) = true := fun x hx => by
    simp only [decide_eq_true_eq]
    exact fun e => hcolon (e ▸ hx)
  have htk : (pre ++ ':' :: rest).takeWhile (· ≠ ':') = pre := by
    rw [takeWhile_app_of_all _ hall]
    simp [List.takeWhile_cons]
  have hdw : (pre ++ ':' :: rest).dropWhile (· ≠ ':') = ':' :: rest := by
    rw [dropWhile_app_of_all _ hall]
    simp [List.dropWhile_cons]
  have hcond : (decide (pre ≠ []) && pre.all isSchemeChar && (pre.headD '0').isAlpha) = true := by
    rw [Bool.and_eq_true, Bool.and_eq_true]
    exact ⟨⟨by simpa using hne, hsch⟩, halpha⟩
  unfold splitScheme
  rw [htk, hdw, if_neg (by simp), if_pos hcond]
  simp

theorem splitNetloc_shape {nl tl : List Char}
    (h5 : ∀ c ∈ nl, netlocEnd c = false)
    (h6 : tl = [] ∨ ∃ d t, tl = d :: t ∧ netlocEnd d = true) :
    splitNetloc ('/' :: '/' :: (nl ++ tl)) = (nl, tl) := by
  have hall : ∀ c ∈ nl, (fun c => !netlocEnd c) c = true := fun c hc => by
    simp [h5 c hc]
  unfold splitNetloc
  rw [if_pos (by simp [startsWithList])]
  have hdrop : ('/' :: '/' :: (nl ++ tl)).drop 2 = nl ++ tl := rfl
  rw [hdrop, takeWhile_app_of_all _ hall, dropWhile_app_of_all _ hall]
  rcases h6 with rfl | ⟨d, t, rfl, hd⟩
  · simp
  · simp [List.takeWhile_cons, List.dropWhile_cons, hd]

theorem splitNetloc_fst_no_end (s : List Char) :
    ∀ c ∈ (splitNetloc s).1, netlocEnd c = false := by
  unfold splitNetloc
  by_cases h : startsWithList "//".data s = true
  · rw [if_pos h]
    intro c hc
    have := List.mem_takeWhile_imp hc
    simpa using this
  · rw [if_neg h]
    intro c hc
    cases hc

theorem urlparse_shape (schRaw nl tl : List Char)
    (h1 : schRaw ≠ []) (h2 : schRaw.all isSchemeChar = true)
    (h3 : ((schRaw.headD '0').isAlpha) = true) (h4 : ':' ∉ schRaw)
    (h5 : ∀ c ∈ nl, netlocEnd c = false)
    (h6 : tl = [] ∨ ∃ d t, tl = d :: t ∧ netlocEnd d = true) :
    urlparseChars (schRaw ++ ':' :: '/' :: '/' :: (nl ++ tl)) =
      ⟨schRaw.map Char.toLower, nl,
        (splitParams (splitFirst '?' (splitFirst '#' tl).1).1).1,
        (splitParams (splitFirst '?' (splitFirst '#' tl).1).1).2,
        (splitFirst '?' (splitFirst '#' tl).1).2,
        (splitFirst '#' tl).2⟩ := by
  have hsch : splitScheme (schRaw ++ ':' :: ('/' :: '/' :: (nl ++ tl))) =
      (schRaw.map Char.toLower, '/' :: '/' :: (nl ++ tl)) :=
    splitScheme_shape _ h1 h2 h3 h4
  have hnl : splitNetloc ('/' :: '/' :: (nl ++ tl)) = (nl, tl) := splitNetloc_shape h5 h6
  unfold urlparseChars
  rw [hsch, hnl]

theorem startsWithList_app (p t : List Char) : startsWithList p (p ++ t) = true := by
  induction p with
  | nil => rfl
  | cons x xs ih => simp [startsWithList, ih]

theorem startsWithList_shape {p s : List Char} (h : startsWithList p s = true) :
    ∃ t, s = p ++ t := by
  induction p generalizing s with
  | nil => exact ⟨s, rfl⟩
  | cons x xs ih =>
    cases s with
    | nil => cases h
    | cons y ys =>
      unfold startsWithList at h
      rw [Bool.and_eq_true] at h
      obtain ⟨hxy, hrest⟩ := h
      obtain ⟨t, rfl⟩ := ih hrest
      have : x = y := by simpa using hxy
      subst this
      exact ⟨t, rfl⟩

theorem withScheme_starts (t : List Char) :
    startsWithList "http://".data (withScheme t) = true ∨
      startsWithList "https://".data (withScheme t) = true := by
  unfold withScheme
  by_cases h : (startsWithList "http://".data t || startsWithList "https://".data t) = true
  · rw [if_pos h]
    exact Bool.or_eq_true_iff.mp h
  · rw [if_neg h]
    exact Or.inr (startsWithList_app _ _)

theorem trim_of_no_ws {s : List Char} (h : ∀ c ∈ s, c.isWhitespace = false) :
    trimChars s = s := by
  unfold trimChars
  rw [dropWhile_of_all_false h,
    dropWhile_of_all_false (fun c hc => h c (List.mem_reverse.mp hc)),
    List.reverse_reverse]

theorem splitScheme_cases (s : List Char) :
    (splitScheme s).1 = [] ∨
      (s = s.takeWhile (· ≠ ':') ++ ':' :: (splitScheme s).2 ∧
        (splitScheme s).1 = (s.takeWhile (· ≠ ':')).map Char.toLower ∧
        s.takeWhile (· ≠ ':') ≠ [] ∧ (s.takeWhile (· ≠ ':')).all isSchemeChar = true ∧
        ((s.takeWhile (· ≠ ':')).headD '0').isAlpha = true ∧
        ':' ∉ s.takeWhile (· ≠ ':')) := by
  unfold splitScheme
  by_cases h1 : s.dropWhile (· ≠ ':') = []
  · rw [if_pos h1]
    exact Or.inl rfl
  · rw [if_neg h1]
    by_cases h2 : (decide (s.takeWhile (· ≠ ':') ≠ []) &&
        (s.takeWhile (· ≠ ':')).all isSchemeChar &&
        ((s.takeWhile (· ≠ ':')).headD '0').isAlpha) = true
    · rw [if_pos h2]
      right
      simp only [Bool.and_eq_true, decide_eq_true_eq] at h2
      obtain ⟨⟨hne, hall⟩, halpha⟩ := h2
      refine ⟨?_, rfl, hne, hall, halpha, ?_⟩
      · rcases dropWhile_shape (p := (· ≠ ':')) s with hn | ⟨d, t, hdt, hd⟩
        · exact absurd hn h1
        · have hd' : d = ':' := by simpa using hd
          subst hd'
          rw [hdt]
          conv_lhs => rw [← List.takeWhile_append_dropWhile (p := (· ≠ ':')) (l := s), hdt]
          simp
      · intro hm
        have := List.mem_takeWhile_imp hm
        simp at this
    · rw [if_neg h2]
      exact Or.inl rfl

theorem splitNetloc_cases (s : List Char) :
    (splitNetloc s).1 = [] ∨
      ∃ r, s = '/' :: '/' :: r ∧
        (splitNetloc s).1 = r.takeWhile (fun c => !netlocEnd c) ∧
        (splitNetloc s).2 = r.dropWhile (fun c => !netlocEnd c) := by
  by_cases h : startsWithList "//".data s = true
  · obtain ⟨t, rfl⟩ := startsWithList_shape h
    right
    refine ⟨t, rfl, ?_, ?_⟩ <;>
    · unfold splitNetloc
      rw [if_pos h]
      rfl
  · left
    unfold splitNetloc
    rw [if_neg h]

theorem parse_helper (sch : List Char) (hsch : sch = "http".data ∨ sch = "https".data)
    (r : List Char) :
    urlparseChars (sch ++ ':' :: '/' :: '/' :: r) =
      ⟨sch, r.takeWhile (fun c => !netlocEnd c),
        (splitParams (splitFirst '?'
          (splitFirst '#' (r.dropWhile (fun c => !netlocEnd c))).1).1).1,
        (splitParams (splitFirst '?'
          (splitFirst '#' (r.dropWhile (fun c => !netlocEnd c))).1).1).2,
        (splitFirst '?' (splitFirst '#' (r.dropWhile (fun c => !netlocEnd c))).1).2,
        (splitFirst '#' (r.dropWhile (fun c => !netlocEnd c))).2⟩ := by
  have hnl : ∀ c ∈ r.takeWhile (fun c => !netlocEnd c), netlocEnd c = false := by
    intro c hc
    have := List.mem_takeWhile_imp hc
    simpa using this
  have htl : r.dropWhile (fun c => !netlocEnd c) = [] ∨
      ∃ d t, r.dropWhile (fun c => !netlocEnd c) = d :: t ∧ netlocEnd d = true := by
    rcases dropWhile_shape (p := fun c => !netlocEnd c) r with hn | ⟨d, t, hdt, hd⟩
    · exact Or.inl hn
    · exact Or.inr ⟨d, t, hdt, by simpa using hd⟩
  rcases hsch with rfl | rfl
  · have h := urlparse_shape "http".data (r.takeWhile (fun c => !netlocEnd c))
      (r.dropWhile (fun c => !netlocEnd c)) (by decide) (by decide) (by decide) (by decide)
      hnl htl
    rw [List.takeWhile_append_dropWhile] at h
    have hmap : ("http".data).map Char.toLower = "http".data := by decide
    rw [hmap] at h
    exact h
  · have h := urlparse_shape "https".data (r.takeWhile (fun c => !netlocEnd c))
      (r.dropWhile (fun c => !netlocEnd c)) (by decide) (by decide) (by decide) (by decide)
      hnl htl
    rw [List.takeWhile_append_dropWhile] at h
    have hmap : ("https".data).map Char.toLower = "https".data := by decide
    rw [hmap] at h
    exact h

theorem tail_components_ws {tl : List Char} (htlws : ∀ c ∈ tl, c.isWhitespace = false) :
    ((splitParams (splitFirst '?' (splitFirst '#' tl).1).1).1).all
        (fun c => !c.isWhitespace) = true ∧
      ((splitParams (splitFirst '?' (splitFirst '#' tl).1).1).2).all
        (fun c => !c.isWhitespace) = true ∧
      ((splitFirst '?' (splitFirst '#' tl).1).2).all (fun c => !c.isWhitespace) = true ∧
      ((splitFirst '#' tl).2).all (fun c => !c.isWhitespace) = true := by
  refine ⟨?_, ?_, ?_, ?_⟩ <;> rw [List.all_eq_true] <;> intro c hc
  · have : c ∈ tl :=
      mem_splitFirst_fst (mem_splitFirst_fst (mem_splitParams_fst hc))
    simp [htlws c this]
  · have : c ∈ tl :=
      mem_splitFirst_fst (mem_splitFirst_fst (mem_splitParams_snd hc))
    simp [htlws c this]
  · have : c ∈ tl := mem_splitFirst_fst (mem_splitFirst_snd hc)
    simp [htlws c this]
  · have : c ∈ tl := mem_splitFirst_snd hc
    simp [htlws c this]

theorem isValid_of_shape {pre nl tl : List Char}
    (hne : pre ≠ []) (hall : pre.all isSchemeChar = true)
    (halpha : ((pre.headD '0').isAlpha) = true) (hcolon : ':' ∉ pre)
    (hmap : pre.map Char.toLower = "http".data ∨ pre.map Char.toLower = "https".data)
    (hvn : validNetloc nl = true)
    (hnlend : ∀ c ∈ nl, netlocEnd c = false)
    (htl : tl = [] ∨ ∃ d t, tl = d :: t ∧ netlocEnd d = true)
    (htlws : ∀ c ∈ tl, c.isWhitespace = false) :
    isValidUrlChars (pre ++ ':' :: '/' :: '/' :: (nl ++ tl)) = true := by
  have hshape := urlparse_shape pre nl tl hne hall halpha hcolon hnlend htl
  obtain ⟨hp, hpar, hq, hf⟩ := tail_components_ws htlws
  unfold isValidUrlChars
  rw [hshape]
  simp only [Bool.and_eq_true, Bool.or_eq_true_iff, decide_eq_true_eq]
  exact ⟨⟨⟨⟨⟨hmap, hvn⟩, hp⟩, hpar⟩, hq⟩, hf⟩

theorem valid_decomp {s : List Char} (h : isValidUrlChars s = true) :
    ∃ pre nl tl, s = pre ++ ':' :: '/' :: '/' :: (nl ++ tl) ∧
      pre ≠ [] ∧ pre.all isSchemeChar = true ∧ ((pre.headD '0').isAlpha) = true ∧
      ':' ∉ pre ∧
      (pre.map Char.toLower = "http".data ∨ pre.map Char.toLower = "https".data) ∧
      (∀ c ∈ nl, netlocEnd c = false) ∧ validNetloc nl = true ∧
      (tl = [] ∨ ∃ d t, tl = d :: t ∧ netlocEnd d = true) ∧
      (∀ c ∈ tl, c.isWhitespace = false) := by
  have hv := h
  unfold isValidUrlChars at hv
  simp only [Bool.and_eq_true, Bool.or_eq_true_iff, decide_eq_true_eq] at hv
  obtain ⟨⟨⟨⟨⟨hsch, hvn⟩, hpws⟩, hparws⟩, hqws⟩, hfws⟩ := hv
  have hschne : (splitScheme s).1 ≠ [] := by
    intro hnil
    have : (urlparseChars s).scheme = [] := hnil
    rcases hsch with he | he <;> rw [he] at this <;> cases this
  rcases splitScheme_cases s with hnil | ⟨hseq, hsval, hpne, hpall, hpalpha, hpcolon⟩
  · exact absurd hnil hschne
  have hnlne : (splitNetloc (splitScheme s).2).1 ≠ [] := by
    intro hnil
    have : (urlparseChars s).netloc = [] := hnil
    rw [this] at hvn
    exact absurd rfl (validNetloc_facts hvn).1
  rcases splitNetloc_cases (splitScheme s).2 with hnil | ⟨r, hreq, hnl1, hnl2⟩
  · exact absurd hnil hnlne
  refine ⟨s.takeWhile (· ≠ ':'), r.takeWhile (fun c => !netlocEnd c),
    r.dropWhile (fun c => !netlocEnd c), ?_, hpne, hpall, hpalpha, hpcolon, ?_, ?_, ?_, ?_, ?_⟩
  · conv_lhs => rw [hseq, hreq]
    rw [List.takeWhile_append_dropWhile]
  · rcases hsch with he | he
    · exact Or.inl (hsval ▸ he)
    · exact Or.inr (hsval ▸ he)
  · intro c hc
    have := List.mem_takeWhile_imp hc
    simpa using this
  · have : (urlparseChars s).netloc = r.takeWhile (fun c => !netlocEnd c) := hnl1
    rw [← this]
    exact hvn
  · rcases dropWhile_shape (p := fun c => !netlocEnd c) r with hn | ⟨d, t, hdt, hd⟩
    · exact Or.inl hn
    · exact Or.inr ⟨d, t, hdt, by simpa using hd⟩
  · intro c hc
    have htl2 : (urlparseChars s).fragment = (splitFirst '#' (r.dropWhile (fun c => !netlocEnd c))).2 := by
      show (splitFirst '#' (splitNetloc (splitScheme s).2).2).2 = _
      rw [hnl2]
    obtain ⟨mid1, hm1, hc1, -⟩ := splitFirst_recon '#' (r.dropWhile (fun c => !netlocEnd c))
    rw [hm1] at hc
    rcases List.mem_append.mp hc with hc | hc
    · obtain ⟨mid2, hm2, hc2, -⟩ :=
        splitFirst_recon '?' (splitFirst '#' (r.dropWhile (fun c => !netlocEnd c))).1
      rw [hm2] at hc
      rcases List.mem_append.mp hc with hc | hc
      · obtain ⟨mid3, hm3, hc3⟩ :=
          splitParams_recon (splitFirst '?' (splitFirst '#' (r.dropWhile (fun c => !netlocEnd c))).1).1
        rw [hm3] at hc
        rcases List.mem_append.mp hc with hc | hc
        · have hp : (urlparseChars s).path =
              (splitParams (splitFirst '?' (splitFirst '#'
                (r.dropWhile (fun c => !netlocEnd c))).1).1).1 := by
            show (splitParams (splitFirst '?' (splitFirst '#'
              (splitNetloc (splitScheme s).2).2).1).1).1 = _
            rw [hnl2]
          have := List.all_eq_true.mp hpws c (hp ▸ hc)
          simpa using this
        · rcases hc3 with rfl | rfl
          · cases hc
          · rcases List.mem_cons.mp hc with rfl | hc
            · decide
            · have hp : (urlparseChars s).params =
                  (splitParams (splitFirst '?' (splitFirst '#'
                    (r.dropWhile (fun c => !netlocEnd c))).1).1).2 := by
                show (splitParams (splitFirst '?' (splitFirst '#'
                  (splitNetloc (splitScheme s).2).2).1).1).2 = _
                rw [hnl2]
              have := List.all_eq_true.mp hparws c (hp ▸ hc)
              simpa using this
      · rcases hc2 with rfl | rfl
        · cases hc
        · rcases List.mem_cons.mp hc with rfl | hc
          · decide
          · have hp : (urlparseChars s).query =
                (splitFirst '?' (splitFirst '#'
                  (r.dropWhile (fun c => !netlocEnd c))).1).2 := by
              show (splitFirst '?' (splitFirst '#'
                (splitNetloc (splitScheme s).2).2).1).2 = _
              rw [hnl2]
            have := List.all_eq_true.mp hqws c (hp ▸ hc)
            simpa using this
    · rcases hc1 with rfl | rfl
      · cases hc
      · rcases List.mem_cons.mp hc with rfl | hc
        · decide
        · have := List.all_eq_true.mp hfws c (htl2 ▸ hc)
          simpa using this

theorem valid_no_ws {s : List Char} (h : isValidUrlChars s = true) :
    ∀ c ∈ s, c.isWhitespace = false := by
  obtain ⟨pre, nl, tl, rfl, hne, hall, halpha, hcolon, hmap, hnlend, hvn, htl, htlws⟩ :=
    valid_decomp h
  intro c hc
  rcases List.mem_append.mp hc with hc | hc
  · exact isSchemeChar_not_ws (List.all_eq_true.mp hall c hc)
  · rcases List.mem_cons.mp hc with rfl | hc
    · decide
    · rcases List.mem_cons.mp hc with rfl | hc
      · decide
      · rcases List.mem_cons.mp hc with rfl | hc
        · decide
        · rcases List.mem_append.mp hc with hc | hc
          · exact (validNetloc_facts hvn).2.1 c hc
          · exact htlws c hc

theorem isValid_clean {s : List Char} (h : isValidUrlChars s = true) :
    isValidUrlChars (cleanChars s) = true ∧
      (urlparseChars (cleanChars s)).netloc = (urlparseChars s).netloc := by
  have htrim : trimChars s = s := trim_of_no_ws (valid_no_ws h)
  obtain ⟨pre, nl, tl, hs, hne, hall, halpha, hcolon, hmap, hnlend, hvn, htlshape, htlws⟩ :=
    valid_decomp h
  have hshape := urlparse_shape pre nl tl hne hall halpha hcolon hnlend htlshape
  unfold cleanChars
  rw [htrim]
  by_cases hcl : (decide (s.getLast? = some '/') && decide (3 < s.count '/')) = true
  · rw [if_pos hcl]
    simp only [Bool.and_eq_true, decide_eq_true_eq] at hcl
    obtain ⟨hlast, -⟩ := hcl
    have hnlne := (validNetloc_facts hvn).1
    have htlne : tl ≠ [] := by
      intro hnil
      subst hnil
      rw [hs, List.append_nil] at hlast
      have h2 : (pre ++ ':' :: '/' :: '/' :: nl).getLast? = nl.getLast? := by
        have he : pre ++ ':' :: '/' :: '/' :: nl = (pre ++ [':', '/', '/']) ++ nl := by simp
        rw [he, List.getLast?_append_of_ne_nil _ hnlne]
      rw [h2] at hlast
      have := hnlend '/' (List.mem_of_mem_getLast? hlast)
      simp [netlocEnd] at this
    obtain ⟨d, t, htleq, hd⟩ := htlshape.resolve_left htlne
    subst htleq
    have hsplit : s = (pre ++ ':' :: '/' :: '/' :: nl) ++ d :: t := by
      rw [hs]; simp
    have hdrop : s.dropLast = pre ++ ':' :: '/' :: '/' :: (nl ++ (d :: t).dropLast) := by
      rw [hsplit, List.dropLast_append_of_ne_nil _ (by simp)]
      simp
    rw [hdrop]
    have htl' : (d :: t).dropLast = [] ∨
        ∃ d2 t2, (d :: t).dropLast = d2 :: t2 ∧ netlocEnd d2 = true := by
      cases t with
      | nil => exact Or.inl rfl
      | cons e t2 => exact Or.inr ⟨d, (e :: t2).dropLast, rfl, hd⟩
    have htlws' : ∀ c ∈ (d :: t).dropLast, c.isWhitespace = false := fun c hc =>
      htlws c ((List.dropLast_sublist _).subset hc)
    have hshape' := urlparse_shape pre nl ((d :: t).dropLast) hne hall halpha hcolon hnlend htl'
    constructor
    · exact isValid_of_shape hne hall halpha hcolon hmap hvn hnlend htl' htlws'
    · rw [hshape']
      conv_rhs => rw [hs]
      rw [hshape]
  · rw [if_neg hcl]
    exact ⟨h, rfl⟩

/-! ## String-level consequences used by the crawl claims -/

theorem is_valid_clean_url {u : String} (h : is_valid_url u = true) :
    is_valid_url (clean_url u) = true ∧ get_domain (clean_url u) = get_domain u := by
  unfold is_valid_url at h
  obtain ⟨h1, h2⟩ := isValid_clean h
  constructor
  · exact h1
  · unfold get_domain clean_url
    have hd : (String.mk (cleanChars u.data)).data = cleanChars u.data := rfl
    rw [hd, h2]

theorem is_same_domain_eq {u l : String} (h : is_same_domain u l = true) :
    get_domain l = get_domain u := by
  unfold is_same_domain at h
  cases hu : get_domain u with
  | none => rw [hu] at h; cases h
  | some du =>
    cases hl : get_domain l with
    | none => rw [hu, hl] at h; cases h
    | some dl =>
      rw [hu, hl] at h
      simp only [decide_eq_true_eq] at h
      rw [h]

theorem get_domain_of_valid {u : String} (h : is_valid_url u = true) :
    ∃ d, get_domain u = some d := by
  unfold is_valid_url isValidUrlChars at h
  simp only [Bool.and_eq_true] at h
  have hvn := h.1.1.1.1.2
  unfold get_domain
  rw [if_neg (validNetloc_facts hvn).1]
  exact ⟨_, rfl⟩

theorem make_absolute_valid {base rel a : String} (h : make_absolute_url base rel = some a) :
    is_valid_url a = true := by
  unfold make_absolute_url at h
  by_cases hv : isValidUrlChars (urljoinChars base.data rel.data) = true
  · rw [if_pos hv] at h
    injection h with h
    subst h
    exact hv
  · rw [if_neg hv] at h
    cases h

theorem extract_links_valid (doc : HForest) (base : String) :
    ∀ l ∈ extract_links doc base, is_valid_url l = true := by
  unfold extract_links
  suffices h : ∀ hs acc, (∀ l ∈ acc, is_valid_url l = true) →
      ∀ l ∈ linksLoop base hs acc, is_valid_url l = true by
    intro l hl
    exact h (hrefsF doc) [] (by simp) l hl
  intro hs
  induction hs with
  | nil => intro acc hacc l hl; exact hacc l hl
  | cons hh rest ih =>
    intro acc hacc l hl
    unfold linksLoop at hl
    by_cases hskip : skippedHref hh = true
    · rw [if_pos hskip] at hl
      exact ih acc hacc l hl
    · rw [if_neg hskip] at hl
      cases habs : make_absolute_url base hh with
      | none =>
        rw [habs] at hl
        exact ih acc hacc l hl
      | some a =>
        simp only [habs] at hl
        by_cases hmem : a ∈ acc
        · rw [if_pos hmem] at hl
          exact ih acc hacc l hl
        · rw [if_neg hmem] at hl
          refine ih _ ?_ l hl
          intro x hx
          rcases List.mem_append.mp hx with hx | hx
          · exact hacc x hx
          · rw [List.mem_singleton.mp hx]
            exact make_absolute_valid habs

set_option maxHeartbeats 1000000 in
theorem normalize_valid {s nu : String} (h : normalize_url s = some nu) :
    is_valid_url nu = true := by
  unfold normalize_url at h
  by_cases hs0 : s = ""
  · rw [if_pos hs0] at h
    cases h
  · rw [if_neg hs0] at h
    unfold normalizeChars at h
    by_cases hv : isValidUrlChars
        (reconstructBase (urlparseChars (withScheme (trimChars s.data)))) = true
    · rw [if_pos hv, Option.map_some'] at h
      injection h with h'
      subst h'
      exact hv
    · rw [if_neg hv] at h
      cases h

theorem scrape_website_ok {cfg : CrawlConfig} {web : String → Option HForest}
    {prior : CrawlState} {s : String} {res : List ScrapedPage} {st2 : CrawlState}
    (h : scrape_website cfg web prior s = (Except.ok res, st2)) :
    ∃ nu, normalize_url s = some nu ∧
      st2 = crawl_recursive cfg web nu 0 ⟨[], [], []⟩ ∧ res = st2.results := by
  unfold scrape_website at h
  cases hn : normalize_url s with
  | none =>
    rw [hn] at h
    simp at h
  | some nu =>
    rw [hn] at h
    injection h with h1 h2
    injection h1 with h1
    refine ⟨nu, rfl, h2.symm, ?_⟩
    subst h2
    exact h1.symm

theorem domValidInv_preserved (cfg : CrawlConfig) (web : String → Option HForest)
    (hdom : String) (url : String) (depth : Nat) (st : CrawlState)
    (hurl : is_valid_url url = true) (hd : get_domain url = some hdom)
    (h : DomValidInv hdom st) : DomValidInv hdom (crawl_recursive cfg web url depth st) := by
  rw [crawl_recursive]
  split
  · exact h
  · split
    · exact h
    · split
      · exact h
      · rename_i hvis
        obtain ⟨hcv, hcd⟩ := is_valid_clean_url hurl
        have hcd' : get_domain (clean_url url) = some hdom := by rw [hcd, hd]
        have hmark : DomValidInv hdom
            ⟨st.visited ++ [clean_url url], st.results, st.fetched ++ [clean_url url]⟩ := by
          obtain ⟨h1, h2⟩ := h
          refine ⟨?_, h2⟩
          intro v hv
          rcases List.mem_append.mp hv with hv | hv
          · exact h1 v hv
          · rw [List.mem_singleton.mp hv]
            exact ⟨hcv, hcd'⟩
        cases hsp : scrape_page web (clean_url url) depth with
        | none =>
          simp only [hsp]
          exact hmark
        | some page =>
          simp only [hsp]
          obtain ⟨hurl_eq, -, doc, -, hlinks⟩ := scrape_page_some _ _ _ _ hsp
          have hstep : DomValidInv hdom
              ⟨st.visited ++ [clean_url url], st.results ++ [page],
                st.fetched ++ [clean_url url]⟩ := by
            obtain ⟨h1', -⟩ := hmark
            refine ⟨h1', ?_⟩
            intro p hp
            rcases List.mem_append.mp hp with hp | hp
            · exact h.2 p hp
            · rw [List.mem_singleton.mp hp, hurl_eq]
              exact ⟨hcv, hcd'⟩
          refine crawlLinksWith_pres cfg (clean_url url) _ (DomValidInv hdom) page.links
            ?_ _ hstep
          intro l hl hdoml st2 h2
          have hlv : is_valid_url l = true := by
            rw [hlinks] at hl
            exact extract_links_valid _ _ l hl
          have hld : get_domain l = some hdom := by
            rw [is_same_domain_eq hdoml, hcd']
          exact domValidInv_preserved cfg web hdom l (depth + 1) st2 hlv hld h2
termination_by cfg.max_depth + 1 - depth
decreasing_by omega

/-! ## The whitespace pipeline (C7) -/

theorem splitPred_ne_nil (p : Char → Bool) (s : List Char) : splitPred p s ≠ [] := by
  cases s with
  | nil => simp [splitPred]
  | cons c rest =>
    unfold splitPred
    split <;> split <;> simp

theorem splitPred_cons_sep {p : Char → Bool} {a : Char} (s : List Char) (h : p a = true) :
    splitPred p (a :: s) = [] :: splitPred p s := by
  conv_lhs => unfold splitPred
  cases hs : splitPred p s with
  | nil => exact absurd hs (splitPred_ne_nil p s)
  | cons x t =>
    show (if p a = true then [] :: x :: t else (a :: x) :: t) = [] :: x :: t
    rw [if_pos h]

theorem splitPred_cons_nonsep {p : Char → Bool} {a : Char} {s x : List Char}
    {t : List (List Char)} (h : p a = false) (hs : splitPred p s = x :: t) :
    splitPred p (a :: s) = (a :: x) :: t := by
  conv_lhs => unfold splitPred
  rw [hs]
  show (if p a = true then [] :: x :: t else (a :: x) :: t) = (a :: x) :: t
  rw [if_neg (by simp [h])]

theorem splitPred_eq_single {p : Char → Bool} {s : List Char}
    (h : ∀ c ∈ s, p c = false) : splitPred p s = [s] := by
  induction s with
  | nil => rfl
  | cons a s ih =>
    exact splitPred_cons_nonsep (h a (List.mem_cons_self a s))
      (ih (fun c hc => h c (List.mem_cons_of_mem a hc)))

theorem splitPred_first {p : Char → Bool} {w : List Char} {a : Char} (r : List Char)
    (hw : ∀ c ∈ w, p c = false) (ha : p a = true) :
    splitPred p (w ++ a :: r) = w :: splitPred p r := by
  induction w with
  | nil => simpa using splitPred_cons_sep r ha
  | cons c w ih =>
    have h2 := ih (fun x hx => hw x (List.mem_cons_of_mem c hx))
    simpa using splitPred_cons_nonsep (hw c (List.mem_cons_self c w)) h2

theorem mem_splitPred {p : Char → Bool} {s : List Char} :
    ∀ {x : List Char}, x ∈ splitPred p s → ∀ {c : Char}, c ∈ x → c ∈ s ∧ p c = false := by
  induction s with
  | nil =>
    intro x hx c hc
    simp [splitPred] at hx
    subst hx
    cases hc
  | cons a s ih =>
    intro x hx c hc
    by_cases ha : p a = true
    · rw [splitPred_cons_sep s ha] at hx
      rcases List.mem_cons.mp hx with h1 | h1
      · subst h1
        cases hc
      · obtain ⟨h2, h3⟩ := ih h1 hc
        exact ⟨List.mem_cons_of_mem a h2, h3⟩
    · have ha2 : p a = false := by
        cases hpa : p a
        · rfl
        · exact absurd hpa ha
      cases hs : splitPred p s with
      | nil => exact absurd hs (splitPred_ne_nil p s)
      | cons y t =>
        rw [splitPred_cons_nonsep ha2 hs] at hx
        rcases List.mem_cons.mp hx with h1 | h1
        · subst h1
          rcases List.mem_cons.mp hc with h2 | h2
          · subst h2
            exact ⟨List.mem_cons_self c s, ha2⟩
          · obtain ⟨h3, h4⟩ := ih (hs ▸ List.mem_cons_self y t) h2
            exact ⟨List.mem_cons_of_mem a h3, h4⟩
        · obtain ⟨h3, h4⟩ := ih (hs ▸ List.mem_cons_of_mem y h1) hc
          exact ⟨List.mem_cons_of_mem a h3, h4⟩

theorem joinSp_ne_nil {L : List (List Char)} (h : [] ∉ L) (hne : L ≠ []) :
    joinSp L ≠ [] := by
  cases L with
  | nil => exact absurd rfl hne
  | cons x L =>
    have hx : x ≠ [] := fun hx => h (hx ▸ List.mem_cons_self x L)
    cases L with
    | nil => simpa [joinSp] using hx
    | cons y M =>
      show x ++ ' ' :: joinSp (y :: M) ≠ []
      simp

theorem joinSp_cons (x : List Char) {L : List (List Char)} (h : [] ∉ L) :
    joinSp (x :: L) = x ++ sepSp (joinSp L) := by
  cases L with
  | nil => simp [joinSp, sepSp]
  | cons y M =>
    have hne : joinSp (y :: M) ≠ [] := joinSp_ne_nil h (by simp)
    show x ++ ' ' :: joinSp (y :: M) = x ++ sepSp (joinSp (y :: M))
    simp [sepSp, hne]

theorem joinSp_append (A B : List (List Char)) :
    joinSp (A ++ B) = if A = [] then joinSp B
      else if B = [] then joinSp A else joinSp A ++ ' ' :: joinSp B := by
  induction A with
  | nil => simp
  | cons x A ih =>
    cases A with
    | nil =>
      cases B with
      | nil => simp [joinSp]
      | cons y M => simp [joinSp]
    | cons z N =>
      have h1 : joinSp (x :: (z :: N ++ B)) = x ++ ' ' :: joinSp (z :: N ++ B) := rfl
      rw [List.cons_append, h1, ih]
      by_cases hB : B = []
      · simp [hB, joinSp]
      · simp only [if_neg (by simp : ¬(z :: N = [])), if_neg hB,
          if_neg (by simp : ¬(x :: z :: N = []))]
        show x ++ ' ' :: (joinSp (z :: N) ++ ' ' :: joinSp B) =
          (x ++ ' ' :: joinSp (z :: N)) ++ ' ' :: joinSp B
        simp

theorem joinSp_flatMap_congr {L : List (List Char)} {F G : List Char → List (List Char)}
    (hF : ∀ l ∈ L, [] ∉ F l) (hG : ∀ l ∈ L, [] ∉ G l)
    (h : ∀ l ∈ L, joinSp (F l) = joinSp (G l)) :
    joinSp (L.flatMap F) = joinSp (L.flatMap G) := by
  induction L with
  | nil => rfl
  | cons l L ih =>
    have hFm : [] ∉ L.flatMap F := by
      simp only [List.mem_flatMap, not_exists]
      intro a
      intro hc
      exact hF a (List.mem_cons_of_mem l hc.1) hc.2
    have hGm : [] ∉ L.flatMap G := by
      simp only [List.mem_flatMap, not_exists]
      intro a
      intro hc
      exact hG a (List.mem_cons_of_mem l hc.1) hc.2
    have ihh := ih (fun a ha => hF a (List.mem_cons_of_mem l ha))
      (fun a ha => hG a (List.mem_cons_of_mem l ha))
      (fun a ha => h a (List.mem_cons_of_mem l ha))
    have hFl := hF l (List.mem_cons_self l L)
    have hGl := hG l (List.mem_cons_self l L)
    have hhl := h l (List.mem_cons_self l L)
    have hfg : F l = [] ↔ G l = [] := by
      constructor
      · intro he
        by_contra hne
        have := joinSp_ne_nil hGl hne
        rw [← hhl, he] at this
        exact this rfl
      · intro he
        by_contra hne
        have := joinSp_ne_nil hFl hne
        rw [hhl, he] at this
        exact this rfl
    have hfm : L.flatMap F = [] ↔ L.flatMap G = [] := by
      constructor
      · intro he
        by_contra hne
        have := joinSp_ne_nil hGm hne
        rw [← ihh, he] at this
        exact this rfl
      · intro he
        by_contra hne
        have := joinSp_ne_nil hFm hne
        rw [ihh, he] at this
        exact this rfl
    rw [List.flatMap_cons, List.flatMap_cons, joinSp_append, joinSp_append, hhl, ihh]
    by_cases h1 : F l = []
    · rw [if_pos h1, if_pos (hfg.mp h1)]
    · rw [if_neg h1, if_neg (fun hc => h1 (hfg.mpr hc))]
      by_cases h2 : L.flatMap F = []
      · rw [if_pos h2, if_pos (hfm.mp h2)]
      · rw [if_neg h2, if_neg (fun hc => h2 (hfm.mpr hc))]

theorem splitSub2_ne_nil (s : List Char) : splitSub2 s ≠ [] := by
  rw [splitSub2.eq_def]
  split
  · simp
  · simp
  · split <;> simp

theorem splitSub2_cons2 (y : List Char) :
    splitSub2 (' ' :: ' ' :: y) = [] :: splitSub2 y := rfl

theorem splitSub2_cons_ne {c : Char} {y x : List Char} {t : List (List Char)}
    (hc : c ≠ ' ') (hs : splitSub2 y = x :: t) :
    splitSub2 (c :: y) = (c :: x) :: t := by
  rw [splitSub2.eq_def]
  split
  · rename_i heq
    cases heq
  · rename_i heq
    injection heq with h1 h2
    exact absurd h1 hc
  · rename_i hnm heq
    injection heq with h1 h2
    subst h1
    subst h2
    rw [hs]

theorem splitSub2_cons_space {y x : List Char} {t : List (List Char)}
    (hy : y.head? ≠ some ' ') (hs : splitSub2 y = x :: t) :
    splitSub2 (' ' :: y) = (' ' :: x) :: t := by
  rw [splitSub2.eq_def]
  split
  · rename_i heq
    cases heq
  · rename_i heq
    injection heq with h1 h2
    exact absurd (by rw [h2]; rfl) hy
  · rename_i hnm heq
    injection heq with h1 h2
    subst h1
    subst h2
    rw [hs]

theorem mem_splitSub2 {s : List Char} :
    ∀ {x : List Char}, x ∈ splitSub2 s → ∀ {c : Char}, c ∈ x → c ∈ s := by
  induction s using splitSub2.induct with
  | case1 =>
    intro x hx c hc
    simp [splitSub2] at hx
    subst hx
    cases hc
  | case2 rest ih =>
    intro x hx c hc
    rw [splitSub2_cons2] at hx
    rcases List.mem_cons.mp hx with h1 | h1
    · subst h1
      cases hc
    · have := ih h1 hc
      simp [this]
  | case3 c0 rest hnm hmatch ih =>
    exact absurd hmatch (splitSub2_ne_nil rest)
  | case4 c0 rest hnm h t hs ih =>
    intro x hx c hc
    have hstep : splitSub2 (c0 :: rest) = (c0 :: h) :: t := by
      by_cases hc0 : c0 = ' '
      · subst hc0
        have hhd : rest.head? ≠ some ' ' := by
          intro hhd
          cases rest with
          | nil => cases hhd
          | cons e r2 =>
            have he : e = ' ' := by
              injection hhd
            exact hnm r2 rfl (by rw [he])
        exact splitSub2_cons_space hhd hs
      · exact splitSub2_cons_ne hc0 hs
    rw [hstep] at hx
    rcases List.mem_cons.mp hx with h1 | h1
    · subst h1
      rcases List.mem_cons.mp hc with h2 | h2
      · subst h2
        exact List.mem_cons_self c rest
      · exact List.mem_cons_of_mem c0 (ih (hs ▸ List.mem_cons_self h t) h2)
    · exact List.mem_cons_of_mem c0 (ih (hs ▸ List.mem_cons_of_mem h h1) hc)

theorem trim_cons_ws {a : Char} (h : a.isWhitespace = true) (y : List Char) :
    trimChars (a :: y) = trimChars y := by
  unfold trimChars
  rw [List.dropWhile_cons, if_pos h]

theorem trim_allws {y : List Char} (h : ∀ c ∈ y, c.isWhitespace = true) :
    trimChars y = [] := by
  unfold trimChars
  rw [List.dropWhile_eq_nil_iff.mpr h]
  rfl

theorem trimTrail_cons_nonws {a : Char} (h : a.isWhitespace = false) (y : List Char) :
    trimTrail (a :: y) = a :: trimTrail y := by
  unfold trimTrail
  rw [List.reverse_cons, List.dropWhile_append]
  by_cases he : y.reverse.dropWhile Char.isWhitespace = []
  · rw [if_pos (by simp [he]), he]
    rw [List.dropWhile_cons, if_neg (by simp [h])]
    rfl
  · rw [if_neg (by simp [he])]
    simp

theorem trimTrail_cons_ws {a : Char} {y : List Char} (h : a.isWhitespace = true)
    (hy : trimTrail y ≠ []) : trimTrail (a :: y) = a :: trimTrail y := by
  unfold trimTrail at hy ⊢
  rw [List.reverse_cons, List.dropWhile_append]
  have he : ¬ y.reverse.dropWhile Char.isWhitespace = [] := by
    intro hcon
    rw [hcon] at hy
    exact hy rfl
  rw [if_neg (by simp [he])]
  simp

theorem trim_cons_nonws {a : Char} (h : a.isWhitespace = false) (y : List Char) :
    trimChars (a :: y) = a :: trimTrail y := by
  unfold trimChars
  rw [List.dropWhile_cons, if_neg (by simp [h])]
  have : ((a :: y).reverse.dropWhile Char.isWhitespace).reverse = trimTrail (a :: y) := rfl
  rw [this, trimTrail_cons_nonws h]

theorem nil_not_mem_filter (L : List (List Char)) : [] ∉ L.filter (· ≠ []) := by
  simp [List.mem_filter]

theorem chunks2_cons2 (y : List Char) : chunks2 (' ' :: ' ' :: y) = chunks2 y := by
  unfold chunks2
  rw [splitSub2_cons2, List.map_cons]
  rw [List.filter_cons_of_neg (by simp [trimChars])]

theorem chunks2_cons_space {y : List Char} (hy : y.head? ≠ some ' ') :
    chunks2 (' ' :: y) = chunks2 y := by
  cases hs : splitSub2 y with
  | nil => exact absurd hs (splitSub2_ne_nil y)
  | cons x t =>
    unfold chunks2
    rw [splitSub2_cons_space hy hs, hs, List.map_cons, List.map_cons,
      trim_cons_ws (by decide)]

theorem chunks2_space_join (y : List Char) :
    joinSp (chunks2 (' ' :: y)) = joinSp (chunks2 y) := by
  cases y with
  | nil => rfl
  | cons b y2 =>
    by_cases hb : b = ' '
    · subst hb
      rw [chunks2_cons2 y2]
      exact (chunks2_space_join y2).symm
    · have hhd : (b :: y2).head? ≠ some ' ' := by
        intro hcon
        injection hcon with hcon
        exact hb hcon
      rw [chunks2_cons_space hhd]
termination_by y.length

theorem chunks2_cons_join {a d : Char} {y2 : List Char} (ha : a.isWhitespace = false)
    (hd : d.isWhitespace = false) :
    joinSp (chunks2 (a :: d :: y2)) = a :: joinSp (chunks2 (d :: y2)) := by
  have hdsp : d ≠ ' ' := by
    intro hcon
    subst hcon
    cases hd
  cases hs : splitSub2 y2 with
  | nil => exact absurd hs (splitSub2_ne_nil y2)
  | cons h t =>
      have hstep : splitSub2 (d :: y2) = (d :: h) :: t := splitSub2_cons_ne hdsp hs
      have hstep2 : splitSub2 (a :: d :: y2) = (a :: d :: h) :: t :=
        splitSub2_cons_ne (by intro hcon; subst hcon; cases ha) hstep
      unfold chunks2
      rw [hstep, hstep2, List.map_cons, List.map_cons,
        trim_cons_nonws ha, trim_cons_nonws hd, trimTrail_cons_nonws hd,
        List.filter_cons_of_pos (by simp), List.filter_cons_of_pos (by simp)]
      rw [joinSp_cons _ (nil_not_mem_filter _), joinSp_cons _ (nil_not_mem_filter _)]
      rfl

theorem chunks2_word_single {a : Char} {y : List Char} (ha : a.isWhitespace = false)
    (hy : y = [] ∨ y.head? = some ' ')
    (hws : ∀ c ∈ y, c.isWhitespace = true → c = ' ') :
    joinSp (chunks2 (a :: y)) = a :: sepSp (joinSp (chunks2 y)) := by
  have hasp : a ≠ ' ' := by
    intro hcon
    subst hcon
    cases ha
  rcases hy with hy | hy
  · subst hy
    have h1 : splitSub2 [a] = [[a]] := splitSub2_cons_ne hasp rfl
    have h2 : chunks2 [a] = [[a]] := by
      unfold chunks2
      rw [h1, List.map_cons, trim_cons_nonws ha]
      rfl
    rw [h2]
    rfl
  · cases y with
    | nil => cases hy
    | cons b y2 =>
      have hb : b = ' ' := by injection hy
      subst hb
      cases y2 with
      | nil =>
        have h0 : splitSub2 [' '] = [[' ']] := by decide
        have h1 : splitSub2 [a, ' '] = [[a, ' ']] := splitSub2_cons_ne hasp h0
        have h2 : chunks2 [a, ' '] = [[a]] := by
          unfold chunks2
          rw [h1, List.map_cons, trim_cons_nonws ha]
          rfl
        rw [h2]
        rfl
      | cons d y3 =>
        by_cases hd : d = ' '
        · subst hd
          have key : splitSub2 (a :: ' ' :: ' ' :: y3) = [a] :: splitSub2 y3 :=
            splitSub2_cons_ne hasp (splitSub2_cons2 y3)
          have h3 : chunks2 (a :: ' ' :: ' ' :: y3) = [a] :: chunks2 y3 := by
            unfold chunks2
            rw [key, List.map_cons, trim_cons_nonws ha,
              List.filter_cons_of_pos (by simp)]
            rfl
          rw [h3, joinSp_cons [a] (show ([] : List Char) ∉ chunks2 y3 from
            nil_not_mem_filter _), chunks2_cons2]
          rfl
        · have hdw : d.isWhitespace = false := by
            cases hpd : d.isWhitespace
            · rfl
            · exact absurd (hws d (by simp) hpd) hd
          cases hs3 : splitSub2 y3 with
          | nil => exact absurd hs3 (splitSub2_ne_nil y3)
          | cons h2 t2 =>
            have hstep : splitSub2 (d :: y3) = (d :: h2) :: t2 :=
              splitSub2_cons_ne hd hs3
            have hsp2 : splitSub2 (' ' :: d :: y3) = (' ' :: d :: h2) :: t2 :=
              splitSub2_cons_space (by intro hcon; injection hcon with hcon; exact hd hcon)
                hstep
            have hsp3 : splitSub2 (a :: ' ' :: d :: y3) = (a :: ' ' :: d :: h2) :: t2 :=
              splitSub2_cons_ne hasp hsp2
            have htt : trimTrail (d :: h2) ≠ [] := by
              rw [trimTrail_cons_nonws hdw]
              simp
            have c1 : chunks2 (a :: ' ' :: d :: y3) =
                (a :: ' ' :: d :: trimTrail h2) :: (t2.map trimChars).filter (· ≠ []) := by
              unfold chunks2
              rw [hsp3, List.map_cons, trim_cons_nonws ha,
                trimTrail_cons_ws (by decide) htt, trimTrail_cons_nonws hdw,
                List.filter_cons_of_pos (by simp)]
            have c2 : chunks2 (' ' :: d :: y3) =
                (d :: trimTrail h2) :: (t2.map trimChars).filter (· ≠ []) := by
              unfold chunks2
              rw [hsp2, List.map_cons, trim_cons_ws (by decide),
                trim_cons_nonws hdw, List.filter_cons_of_pos (by simp)]
            rw [c1, c2, joinSp_cons _ (nil_not_mem_filter _),
              joinSp_cons _ (nil_not_mem_filter _)]
            simp [sepSp]

theorem chunks2_word_join {w r : List Char} (hw : w ≠ [])
    (hwa : ∀ c ∈ w, c.isWhitespace = false)
    (hr : r = [] ∨ r.head? = some ' ')
    (hws : ∀ c ∈ r, c.isWhitespace = true → c = ' ') :
    joinSp (chunks2 (w ++ r)) = w ++ sepSp (joinSp (chunks2 r)) := by
  induction w with
  | nil => exact absurd rfl hw
  | cons a w2 ih =>
    cases w2 with
    | nil => simpa using chunks2_word_single (hwa a (by simp)) hr hws
    | cons d w3 =>
      have h1 : joinSp (chunks2 (a :: d :: (w3 ++ r))) =
          a :: joinSp (chunks2 (d :: (w3 ++ r))) :=
        chunks2_cons_join (hwa a (by simp)) (hwa d (by simp))
      have h2 := ih (by simp) (fun c hc => hwa c (List.mem_cons_of_mem a hc))
      simp only [List.cons_append] at h2 ⊢
      rw [h1, h2]

theorem chunks2_leadspaces {sp : List Char} (h : ∀ c ∈ sp, c = ' ') (z : List Char) :
    joinSp (chunks2 (sp ++ z)) = joinSp (chunks2 z) := by
  induction sp with
  | nil => rfl
  | cons c sp ih =>
    have hc := h c (List.mem_cons_self c sp)
    subst hc
    rw [List.cons_append, chunks2_space_join]
    exact ih (fun x hx => h x (List.mem_cons_of_mem _ hx))

theorem chunks2_allws {y : List Char} (h : ∀ c ∈ y, c.isWhitespace = true) :
    chunks2 y = [] := by
  unfold chunks2
  rw [List.filter_eq_nil_iff]
  intro x hx
  rcases List.mem_map.mp hx with ⟨pc, hpc, hpx⟩
  subst hpx
  simp [trim_allws (fun c hc => h c (mem_splitSub2 hpc hc))]

theorem wordsWs_cons_ws {a : Char} (h : a.isWhitespace = true) (y : List Char) :
    wordsWs (a :: y) = wordsWs y := by
  unfold wordsWs
  rw [splitPred_cons_sep y h, List.filter_cons_of_neg (by simp)]

theorem wordsWs_allws {y : List Char} (h : ∀ c ∈ y, c.isWhitespace = true) :
    wordsWs y = [] := by
  unfold wordsWs
  rw [List.filter_eq_nil_iff]
  intro x hx
  cases x with
  | nil => simp
  | cons c x2 =>
    obtain ⟨hcy, hcf⟩ := mem_splitPred hx (List.mem_cons_self c x2)
    rw [h c hcy] at hcf
    cases hcf

theorem splitPred_head (p : Char → Bool) (y : List Char) :
    ∃ t, splitPred p y = y.takeWhile (fun c => !p c) :: t := by
  induction y with
  | nil => exact ⟨[], rfl⟩
  | cons a y ih =>
    obtain ⟨t, ht⟩ := ih
    by_cases ha : p a = true
    · refine ⟨splitPred p y, ?_⟩
      rw [splitPred_cons_sep y ha, List.takeWhile_cons, if_neg (by simp [ha])]
    · have ha2 : p a = false := by
        cases hpa : p a
        · rfl
        · exact absurd hpa ha
      refine ⟨t, ?_⟩
      rw [splitPred_cons_nonsep ha2 ht, List.takeWhile_cons, if_pos (by simp [ha2])]

theorem takeWhile_append_nonsat {q : Char → Bool} {a : Char} (ha : q a = false)
    (y : List Char) : (y ++ [a]).takeWhile q = y.takeWhile q := by
  rw [List.takeWhile_append]
  by_cases hl : (y.takeWhile q).length = y.length
  · rw [if_pos hl, List.Sublist.eq_of_length (List.takeWhile_sublist q) hl,
      show List.takeWhile q [a] = [] from by rw [List.takeWhile_cons]; simp [ha],
      List.append_nil]
  · rw [if_neg hl]

theorem wordsWs_append_ws {a : Char} (h : a.isWhitespace = true) (y : List Char) :
    wordsWs (y ++ [a]) = wordsWs y := by
  induction y with
  | nil => simpa using wordsWs_cons_ws h []
  | cons b y ih =>
    by_cases hb : b.isWhitespace = true
    · rw [List.cons_append, wordsWs_cons_ws hb, ih, wordsWs_cons_ws hb]
    · have hb2 : b.isWhitespace = false := by
        cases hpb : b.isWhitespace
        · rfl
        · exact absurd hpb hb
      obtain ⟨t1, ht1⟩ := splitPred_head Char.isWhitespace (y ++ [a])
      obtain ⟨t2, ht2⟩ := splitPred_head Char.isWhitespace y
      rw [takeWhile_append_nonsat (by simp [h]) y] at ht1
      have hta : List.filter (· ≠ []) t1 = List.filter (· ≠ []) t2 := by
        have ihh := ih
        unfold wordsWs at ihh
        rw [ht1, ht2] at ihh
        by_cases h0 : y.takeWhile (fun c => !c.isWhitespace) = []
        · rw [List.filter_cons_of_neg (by simp [h0]),
            List.filter_cons_of_neg (by simp [h0])] at ihh
          exact ihh
        · rw [List.filter_cons_of_pos (by simp [h0]),
            List.filter_cons_of_pos (by simp [h0])] at ihh
          injection ihh with h1 h2
      unfold wordsWs
      rw [List.cons_append, splitPred_cons_nonsep hb2 ht1, splitPred_cons_nonsep hb2 ht2,
        List.filter_cons_of_pos (by simp), List.filter_cons_of_pos (by simp), hta]

theorem wordsWs_revdrop (y : List Char) :
    wordsWs ((y.reverse.dropWhile Char.isWhitespace).reverse) = wordsWs y := by
  induction y using List.reverseRecOn with
  | nil => rfl
  | append_singleton y a ih =>
    have hr : (y ++ [a]).reverse = a :: y.reverse := by simp
    rw [hr, List.dropWhile_cons]
    by_cases ha : a.isWhitespace = true
    · rw [if_pos ha, ih]
      exact (wordsWs_append_ws ha y).symm
    · rw [if_neg ha]
      have : (a :: y.reverse).reverse = y ++ [a] := by simp
      rw [this]

theorem wordsWs_dropWhile (y : List Char) :
    wordsWs (y.dropWhile Char.isWhitespace) = wordsWs y := by
  induction y with
  | nil => rfl
  | cons a y ih =>
    rw [List.dropWhile_cons]
    by_cases ha : a.isWhitespace = true
    · rw [if_pos ha, ih, wordsWs_cons_ws ha]
    · rw [if_neg ha]

theorem wordsWs_trim (y : List Char) : wordsWs (trimChars y) = wordsWs y := by
  unfold trimChars
  rw [show ((y.dropWhile Char.isWhitespace).reverse.dropWhile Char.isWhitespace).reverse =
    ((y.dropWhile Char.isWhitespace).reverse.dropWhile Char.isWhitespace).reverse from rfl,
    wordsWs_revdrop (y.dropWhile Char.isWhitespace), wordsWs_dropWhile]

theorem wordsWs_leadws {sp : List Char} (h : ∀ c ∈ sp, c.isWhitespace = true)
    (z : List Char) : wordsWs (sp ++ z) = wordsWs z := by
  induction sp with
  | nil => rfl
  | cons c sp ih =>
    rw [List.cons_append, wordsWs_cons_ws (h c (List.mem_cons_self c sp))]
    exact ih (fun x hx => h x (List.mem_cons_of_mem _ hx))

theorem wordsWs_word_join {w r : List Char} (hw : w ≠ [])
    (hwa : ∀ c ∈ w, c.isWhitespace = false)
    (hr : r = [] ∨ ∃ a r2, r = a :: r2 ∧ a.isWhitespace = true) :
    joinSp (wordsWs (w ++ r)) = w ++ sepSp (joinSp (wordsWs r)) := by
  rcases hr with hr | ⟨a, r2, hr, ha⟩
  · subst hr
    rw [List.append_nil]
    unfold wordsWs
    rw [splitPred_eq_single hwa, List.filter_cons_of_pos (by simp [hw])]
    show w = w ++ sepSp (joinSp (wordsWs []))
    rw [show sepSp (joinSp (wordsWs [])) = [] from rfl, List.append_nil]
  · subst hr
    unfold wordsWs
    rw [splitPred_first r2 hwa ha, List.filter_cons_of_pos (by simp [hw]),
      joinSp_cons _ (nil_not_mem_filter _), splitPred_cons_sep r2 ha,
      List.filter_cons_of_neg (by simp)]

theorem mem_trim {c : Char} {y : List Char} (h : c ∈ trimChars y) : c ∈ y := by
  unfold trimChars at h
  have h1 := List.mem_reverse.mp h
  have h2 := (List.dropWhile_sublist _).subset h1
  have h3 := List.mem_reverse.mp h2
  exact (List.dropWhile_sublist _).subset h3

theorem chunks2_join_eq_words (y : List Char)
    (hws : ∀ c ∈ y, c.isWhitespace = true → c = ' ') :
    joinSp (chunks2 y) = joinSp (wordsWs y) := by
  by_cases hall : ∀ c ∈ y, c.isWhitespace = true
  · rw [chunks2_allws hall, wordsWs_allws hall]
  · have hd : y.dropWhile Char.isWhitespace ≠ [] := by
      rw [Ne, List.dropWhile_eq_nil_iff]
      exact hall
    obtain ⟨e, r0, he⟩ := List.exists_cons_of_ne_nil hd
    have hyd1 : y = y.takeWhile Char.isWhitespace ++ y.dropWhile Char.isWhitespace :=
      (List.takeWhile_append_dropWhile Char.isWhitespace y).symm
    have hyd2 : y.dropWhile Char.isWhitespace =
        (y.dropWhile Char.isWhitespace).takeWhile (fun c => !c.isWhitespace) ++
          (y.dropWhile Char.isWhitespace).dropWhile (fun c => !c.isWhitespace) :=
      (List.takeWhile_append_dropWhile _ _).symm
    have hsp : ∀ c ∈ y.takeWhile Char.isWhitespace, c = ' ' := by
      intro c hc
      exact hws c ((List.takeWhile_sublist Char.isWhitespace).subset hc)
        (List.mem_takeWhile_imp hc)
    have hwne : (y.dropWhile Char.isWhitespace).takeWhile (fun c => !c.isWhitespace) ≠ [] := by
      rw [he, List.takeWhile_cons, if_pos (by simp [dropWhile_head_false he])]
      simp
    have hwa : ∀ c ∈ (y.dropWhile Char.isWhitespace).takeWhile (fun c => !c.isWhitespace),
        c.isWhitespace = false := by
      intro c hc
      simpa using List.mem_takeWhile_imp hc
    have hrmem : ∀ c ∈ (y.dropWhile Char.isWhitespace).dropWhile (fun c => !c.isWhitespace),
        c ∈ y := by
      intro c hc
      exact (List.dropWhile_sublist _).subset ((List.dropWhile_sublist _).subset hc)
    have hrws : ∀ c ∈ (y.dropWhile Char.isWhitespace).dropWhile (fun c => !c.isWhitespace),
        c.isWhitespace = true → c = ' ' := fun c hc => hws c (hrmem c hc)
    have hrshape : (y.dropWhile Char.isWhitespace).dropWhile (fun c => !c.isWhitespace) = [] ∨
        ∃ a r2, (y.dropWhile Char.isWhitespace).dropWhile (fun c => !c.isWhitespace) =
          a :: r2 ∧ a.isWhitespace = true := by
      rcases @dropWhile_shape (fun c => !c.isWhitespace) (y.dropWhile Char.isWhitespace)
        with h1 | ⟨d2, t2, hdt, hdf⟩
      · exact Or.inl h1
      · exact Or.inr ⟨d2, t2, hdt, by simpa using hdf⟩
    have hrsp : (y.dropWhile Char.isWhitespace).dropWhile (fun c => !c.isWhitespace) = [] ∨
        ((y.dropWhile Char.isWhitespace).dropWhile (fun c => !c.isWhitespace)).head? =
          some ' ' := by
      rcases hrshape with h1 | ⟨a2, r2, hdt, haw⟩
      · exact Or.inl h1
      · right
        rw [hdt]
        have ha2 : a2 = ' ' := hrws a2 (by rw [hdt]; exact List.mem_cons_self a2 r2) haw
        rw [ha2]
        rfl
    have hrec := chunks2_join_eq_words
      ((y.dropWhile Char.isWhitespace).dropWhile (fun c => !c.isWhitespace)) hrws
    conv_lhs => rw [hyd1]
    conv_rhs => rw [hyd1]
    rw [chunks2_leadspaces hsp,
      wordsWs_leadws (fun c hc => List.mem_takeWhile_imp hc)]
    conv_lhs => rw [hyd2]
    conv_rhs => rw [hyd2]
    rw [chunks2_word_join hwne hwa hrsp hrws, wordsWs_word_join hwne hwa hrshape, hrec]
termination_by y.length
decreasing_by
  have l1 := congrArg List.length hyd1
  have l2 := congrArg List.length hyd2
  rw [List.length_append] at l1 l2
  have l3 := List.length_pos.mpr hwne
  omega

theorem splitPred_refine {p q : Char → Bool} (hpq : ∀ c, q c = true → p c = true)
    (s : List Char) :
    splitPred p s = (splitPred q s).flatMap (fun l => splitPred p l) := by
  induction s with
  | nil => simp [splitPred]
  | cons a s ih =>
    by_cases hqa : q a = true
    · rw [splitPred_cons_sep s hqa, splitPred_cons_sep s (hpq a hqa), List.flatMap_cons, ih]
      rfl
    · have hqa2 : q a = false := by
        cases hq : q a
        · rfl
        · exact absurd hq hqa
      cases hqs : splitPred q s with
      | nil => exact absurd hqs (splitPred_ne_nil q s)
      | cons h t =>
        rw [splitPred_cons_nonsep hqa2 hqs, List.flatMap_cons]
        by_cases hpa : p a = true
        · rw [splitPred_cons_sep h hpa, splitPred_cons_sep s hpa, ih, hqs,
            List.flatMap_cons]
          rfl
        · have hpa2 : p a = false := by
            cases hp : p a
            · rfl
            · exact absurd hp hpa
          cases hph : splitPred p h with
          | nil => exact absurd hph (splitPred_ne_nil p h)
          | cons h1 t1 =>
            have hps : splitPred p s = h1 :: (t1 ++ t.flatMap (fun l => splitPred p l)) := by
              rw [ih, hqs, List.flatMap_cons, hph]
              rfl
            rw [splitPred_cons_nonsep hpa2 hps, splitPred_cons_nonsep hpa2 hph]
            rfl

theorem cleanTextChars_eq_specCollapse {s : List Char} (hnt : '\t' ∉ s) :
    cleanTextChars s = specCollapse s := by
  have hpq : ∀ c : Char, isLineBreak c = true → c.isWhitespace = true := by
    intro c hc
    have hc2 : c = '\n' ∨ c = '\r' := by simpa [isLineBreak] using hc
    rcases hc2 with hc2 | hc2 <;> subst hc2 <;> decide
  have href : splitPred Char.isWhitespace s =
      (splitPred isLineBreak s).flatMap (fun l => splitPred Char.isWhitespace l) :=
    splitPred_refine hpq s
  unfold cleanTextChars specCollapse
  rw [List.filter_flatMap, List.flatMap_map, href, List.filter_flatMap]
  apply joinSp_flatMap_congr
  · intro l hl
    exact nil_not_mem_filter _
  · intro l hl
    exact nil_not_mem_filter _
  · intro l hl
    show joinSp (chunks2 (trimChars l)) = joinSp (wordsWs l)
    have hlws : ∀ c ∈ trimChars l, c.isWhitespace = true → c = ' ' := by
      intro c hc hw
      obtain ⟨hcs, hlb⟩ := mem_splitPred hl (mem_trim hc)
      rcases isWhitespace_cases hw with h1 | h1 | h1 | h1
      · exact h1
      · subst h1
        exact absurd hcs hnt
      · subst h1
        cases hlb
      · subst h1
        cases hlb
    rw [chunks2_join_eq_words (trimChars l) hlws, wordsWs_trim]

/-! ## The normalization fixed point (C9) -/

theorem parse_shape_lit {sch : List Char} (hsch : sch = "http".data ∨ sch = "https".data)
    {nl tl : List Char} (h5 : ∀ c ∈ nl, netlocEnd c = false)
    (h6 : tl = [] ∨ ∃ d t, tl = d :: t ∧ netlocEnd d = true) :
    urlparseChars (sch ++ ':' :: '/' :: '/' :: (nl ++ tl)) =
      ⟨sch, nl,
        (splitParams (splitFirst '?' (splitFirst '#' tl).1).1).1,
        (splitParams (splitFirst '?' (splitFirst '#' tl).1).1).2,
        (splitFirst '?' (splitFirst '#' tl).1).2,
        (splitFirst '#' tl).2⟩ := by
  rcases hsch with rfl | rfl
  · have h := urlparse_shape "http".data nl tl (by decide) (by decide) (by decide) (by decide)
      h5 h6
    rwa [show ("http".data).map Char.toLower = "http".data from by decide] at h
  · have h := urlparse_shape "https".data nl tl (by decide) (by decide) (by decide) (by decide)
      h5 h6
    rwa [show ("https".data).map Char.toLower = "https".data from by decide] at h

theorem normalizeChars_some_valid {s r : List Char} (h : normalizeChars s = some r) :
    isValidUrlChars r = true ∧
      r = reconstructBase (urlparseChars (withScheme (trimChars s))) := by
  unfold normalizeChars at h
  by_cases hv : isValidUrlChars
      (reconstructBase (urlparseChars (withScheme (trimChars s)))) = true
  · rw [if_pos hv] at h
    injection h with h
    subst h
    exact ⟨hv, rfl⟩
  · rw [if_neg hv] at h
    cases h

theorem parse_withScheme (t : List Char) :
    ∃ sch r0, (sch = "http".data ∨ sch = "https".data) ∧
      withScheme t = sch ++ ':' :: '/' :: '/' :: r0 ∧
      urlparseChars (withScheme t) =
        ⟨sch, r0.takeWhile (fun c => !netlocEnd c),
          (splitParams (splitFirst '?' (splitFirst '#'
            (r0.dropWhile (fun c => !netlocEnd c))).1).1).1,
          (splitParams (splitFirst '?' (splitFirst '#'
            (r0.dropWhile (fun c => !netlocEnd c))).1).1).2,
          (splitFirst '?' (splitFirst '#'
            (r0.dropWhile (fun c => !netlocEnd c))).1).2,
          (splitFirst '#' (r0.dropWhile (fun c => !netlocEnd c))).2⟩ := by
  rcases withScheme_starts t with h | h
  · obtain ⟨t0, heq⟩ := startsWithList_shape h
    refine ⟨"http".data, t0, Or.inl rfl, ?_, ?_⟩
    · rw [heq]
      rfl
    · rw [heq]
      exact parse_helper "http".data (Or.inl rfl) t0
  · obtain ⟨t0, heq⟩ := startsWithList_shape h
    refine ⟨"https".data, t0, Or.inr rfl, ?_, ?_⟩
    · rw [heq]
      rfl
    · rw [heq]
      exact parse_helper "https".data (Or.inr rfl) t0

theorem normalize_reconstruct_stable {sch n p q : List Char}
    (hsch : sch = "http".data ∨ sch = "https".data)
    (hn : ∀ c ∈ n, netlocEnd c = false)
    (hpq : '?' ∉ p) (hph : '#' ∉ p) (hqh : '#' ∉ q)
    (hpp : splitParams p = (p, []))
    (hphead : p = [] ∨ ∃ d pt, p = d :: pt ∧ netlocEnd d = true)
    (hv : isValidUrlChars (sch ++ "://".data ++ n ++ p ++
      (if q ≠ [] then '?' :: q else [])) = true) :
    normalizeChars (sch ++ "://".data ++ n ++ p ++ (if q ≠ [] then '?' :: q else [])) =
      some (sch ++ "://".data ++ n ++ p ++ (if q ≠ [] then '?' :: q else [])) := by
  have hdata : ("://".data : List Char) = [':', '/', '/'] := rfl
  have hRcons : sch ++ "://".data ++ n ++ p ++ (if q ≠ [] then '?' :: q else []) =
      sch ++ ':' :: '/' :: '/' :: (n ++ (p ++ (if q ≠ [] then '?' :: q else []))) := by
    rw [hdata]
    simp [List.append_assoc]
  have htail : (p ++ (if q ≠ [] then '?' :: q else [])) = [] ∨
      ∃ d t, (p ++ (if q ≠ [] then '?' :: q else [])) = d :: t ∧ netlocEnd d = true := by
    rcases hphead with rfl | ⟨d, pt, rfl, hd⟩
    · by_cases hq : q = []
      · subst hq
        left
        simp
      · right
        rw [if_pos hq]
        exact ⟨'?', q, rfl, by decide⟩
    · right
      exact ⟨d, pt ++ (if q ≠ [] then '?' :: q else []), rfl, hd⟩
  have hnoHash : '#' ∉ p ++ (if q ≠ [] then '?' :: q else []) := by
    intro hm
    rcases List.mem_append.mp hm with hm | hm
    · exact hph hm
    · by_cases hq : q = []
      · subst hq
        simp at hm
      · rw [if_pos hq] at hm
        rcases List.mem_cons.mp hm with he | hm
        · cases he
        · exact hqh hm
  have hfr : splitFirst '#' (p ++ (if q ≠ [] then '?' :: q else [])) =
      (p ++ (if q ≠ [] then '?' :: q else []), []) := splitFirst_not_mem hnoHash
  have hparseR := parse_shape_lit hsch hn htail
  rw [hfr] at hparseR
  have hvR : isValidUrlChars
      (sch ++ ':' :: '/' :: '/' :: (n ++ (p ++ (if q ≠ [] then '?' :: q else [])))) = true := by
    rw [← hRcons]
    exact hv
  have hws : withScheme
      (sch ++ ':' :: '/' :: '/' :: (n ++ (p ++ (if q ≠ [] then '?' :: q else []))))
      = sch ++ ':' :: '/' :: '/' :: (n ++ (p ++ (if q ≠ [] then '?' :: q else []))) := by
    unfold withScheme
    rw [if_pos]
    rcases hsch with rfl | rfl
    · exact Bool.or_eq_true_iff.mpr (Or.inl (startsWithList_app "http://".data _))
    · exact Bool.or_eq_true_iff.mpr (Or.inr (startsWithList_app "https://".data _))
  have htrim : trimChars
      (sch ++ ':' :: '/' :: '/' :: (n ++ (p ++ (if q ≠ [] then '?' :: q else []))))
      = sch ++ ':' :: '/' :: '/' :: (n ++ (p ++ (if q ≠ [] then '?' :: q else []))) :=
    trim_of_no_ws (valid_no_ws hvR)
  by_cases hq : q = []
  · subst hq
    have hqr : splitFirst '?' (p ++ (if ([] : List Char) ≠ [] then '?' :: [] else [])) =
        (p, []) := by
      simp only [ne_eq, not_true_eq_false, if_false, List.append_nil]
      exact splitFirst_not_mem hpq
    rw [hqr, hpp] at hparseR
    have hrecon : reconstructBase ⟨sch, n, p, [], [], []⟩ =
        sch ++ ':' :: '/' :: '/' :: (n ++ (p ++ (if ([] : List Char) ≠ [] then '?' :: [] else []))) := by
      unfold reconstructBase
      simp only [ne_eq, not_true_eq_false, if_false, List.append_nil]
      simp [List.append_assoc]
    rw [hRcons]
    unfold normalizeChars
    rw [htrim, hws, hparseR, hrecon, if_pos hvR]
  · have hoptq : (if q ≠ [] then '?' :: q else []) = '?' :: q := if_pos hq
    have hqr : splitFirst '?' (p ++ (if q ≠ [] then '?' :: q else [])) = (p, q) := by
      rw [hoptq]
      exact splitFirst_append q hpq
    rw [hqr, hpp] at hparseR
    have hrecon : reconstructBase ⟨sch, n, p, [], q, []⟩ =
        sch ++ ':' :: '/' :: '/' :: (n ++ (p ++ (if q ≠ [] then '?' :: q else []))) := by
      unfold reconstructBase
      simp only [hoptq]
      simp [List.append_assoc]
    rw [hRcons]
    unfold normalizeChars
    rw [htrim, hws, hparseR, hrecon, if_pos hvR]

theorem normalizeChars_idem {s r : List Char} (h : normalizeChars s = some r) :
    normalizeChars r = some r := by
  obtain ⟨hvr, hreq⟩ := normalizeChars_some_valid h
  obtain ⟨sch, r0, hschlit, -, hparse0⟩ := parse_withScheme (trimChars s)
  rw [hparse0] at hreq
  have hreq2 : r = sch ++ "://".data ++ (r0.takeWhile (fun c => !netlocEnd c)) ++
      (splitParams (splitFirst '?' (splitFirst '#'
        (r0.dropWhile (fun c => !netlocEnd c))).1).1).1 ++
      (if (splitFirst '?' (splitFirst '#' (r0.dropWhile (fun c => !netlocEnd c))).1).2 ≠ []
        then '?' :: (splitFirst '?' (splitFirst '#'
          (r0.dropWhile (fun c => !netlocEnd c))).1).2 else []) := hreq
  clear hreq
  subst hreq2
  have hn : ∀ c ∈ r0.takeWhile (fun c => !netlocEnd c), netlocEnd c = false := by
    intro c hc
    have := List.mem_takeWhile_imp hc
    simpa using this
  have hpq : '?' ∉ (splitParams (splitFirst '?' (splitFirst '#'
      (r0.dropWhile (fun c => !netlocEnd c))).1).1).1 := fun hm =>
    not_mem_splitFirst_fst '?' _ (mem_splitParams_fst hm)
  have hph : '#' ∉ (splitParams (splitFirst '?' (splitFirst '#'
      (r0.dropWhile (fun c => !netlocEnd c))).1).1).1 := fun hm =>
    not_mem_splitFirst_fst '#' _ (mem_splitFirst_fst (mem_splitParams_fst hm))
  have hqh : '#' ∉ (splitFirst '?' (splitFirst '#'
      (r0.dropWhile (fun c => !netlocEnd c))).1).2 := fun hm =>
    not_mem_splitFirst_fst '#' _ (mem_splitFirst_snd hm)
  have hpp := splitParams_idem (splitFirst '?' (splitFirst '#'
      (r0.dropWhile (fun c => !netlocEnd c))).1).1
  have hphead : (splitParams (splitFirst '?' (splitFirst '#'
      (r0.dropWhile (fun c => !netlocEnd c))).1).1).1 = [] ∨
      ∃ d pt, (splitParams (splitFirst '?' (splitFirst '#'
        (r0.dropWhile (fun c => !netlocEnd c))).1).1).1 = d :: pt ∧ netlocEnd d = true := by
    cases hP : (splitParams (splitFirst '?' (splitFirst '#'
        (r0.dropWhile (fun c => !netlocEnd c))).1).1).1 with
    | nil => exact Or.inl rfl
    | cons d pt =>
      right
      refine ⟨d, pt, rfl, ?_⟩
      have h1 : (splitFirst '?' (splitFirst '#'
          (r0.dropWhile (fun c => !netlocEnd c))).1).1.head? = some d := by
        rcases splitParams_fst_head (splitFirst '?' (splitFirst '#'
            (r0.dropWhile (fun c => !netlocEnd c))).1).1 with hnil | hh
        · rw [hP] at hnil
          cases hnil
        · rw [← hh, hP]
          rfl
      have h2 : (splitFirst '#' (r0.dropWhile (fun c => !netlocEnd c))).1.head? = some d := by
        have he : (splitFirst '?' (splitFirst '#'
            (r0.dropWhile (fun c => !netlocEnd c))).1).1 =
            ((splitFirst '#' (r0.dropWhile (fun c => !netlocEnd c))).1).takeWhile
              (· ≠ '?') := rfl
        rw [he] at h1
        rcases takeWhile_head? (p := (· ≠ '?'))
            ((splitFirst '#' (r0.dropWhile (fun c => !netlocEnd c))).1) with hnil | hh
        · rw [hnil] at h1
          cases h1
        · rw [← hh]
          exact h1
      have h3 : (r0.dropWhile (fun c => !netlocEnd c)).head? = some d := by
        have he : (splitFirst '#' (r0.dropWhile (fun c => !netlocEnd c))).1 =
            (r0.dropWhile (fun c => !netlocEnd c)).takeWhile (· ≠ '#') := rfl
        rw [he] at h2
        rcases takeWhile_head? (p := (· ≠ '#'))
            (r0.dropWhile (fun c => !netlocEnd c)) with hnil | hh
        · rw [hnil] at h2
          cases h2
        · rw [← hh]
          exact h2
      cases hTL : r0.dropWhile (fun c => !netlocEnd c) with
      | nil =>
        rw [hTL] at h3
        cases h3
      | cons e t2 =>
        have he : e = d := by
          rw [hTL] at h3
          injection h3
        subst he
        have := dropWhile_head_false hTL
        simpa using this
  exact normalize_reconstruct_stable hschlit hn hpq hph hqh hpp hphead hvr

theorem normalizeChars_ne_nil {s r : List Char} (h : normalizeChars s = some r) : r ≠ [] := by
  intro hnil
  obtain ⟨hvr, -⟩ := normalizeChars_some_valid h
  rw [hnil] at hvr
  exact absurd hvr (by decide)

/-- The link loop of the crawl tracks the spec's link sweep, assuming the
recursive descents agree on (visited, result-URL order). -/
theorem crawlLinksWith_dfs (cfg : CrawlConfig) (cur : String)
    (recur : String → CrawlState → CrawlState)
    (grecur : String → List String × List String → List String × List String)
    (ls : List String)
    (hrec : ∀ l ∈ ls, ∀ st2 : CrawlState,
      ((recur l st2).visited, (recur l st2).results.map (fun p => p.url)) =
        grecur l (st2.visited, st2.results.map (fun p => p.url))) :
    ∀ st : CrawlState,
      ((crawlLinksWith cfg cur recur ls st).visited,
        (crawlLinksWith cfg cur recur ls st).results.map (fun p => p.url)) =
        dfsLinks cfg cur grecur ls (st.visited, st.results.map (fun p => p.url)) := by
  induction ls with
  | nil => intro st; rfl
  | cons l ls ih =>
    intro st
    unfold crawlLinksWith dfsLinks
    by_cases hbud : cfg.max_pages ≤ st.results.length
    · have hbud2 : cfg.max_pages ≤
          (st.visited, st.results.map (fun p => p.url)).2.length := by
        simpa using hbud
      rw [if_pos hbud, if_pos hbud2]
    · have hbud2 : ¬ cfg.max_pages ≤
          (st.visited, st.results.map (fun p => p.url)).2.length := by
        simpa using hbud
      rw [if_neg hbud, if_neg hbud2]
      by_cases hdom : is_same_domain cur l
      · rw [if_pos hdom, if_pos hdom]
        rw [← hrec l (List.mem_cons_self l ls) st]
        exact ih (fun x hx st2 => hrec x (List.mem_cons_of_mem l hx) st2) _
      · rw [if_neg hdom, if_neg hdom]
        exact ih (fun x hx st2 => hrec x (List.mem_cons_of_mem l hx) st2) _

/-- The crawl agrees with the spec's depth-first traversal: the visited list
and the order of result URLs of `crawl_recursive` are exactly those computed
by `dfsSpec` over the page link graph. -/
theorem crawl_recursive_dfs (cfg : CrawlConfig) (web : String → Option HForest)
    (url : String) (depth : Nat) (st : CrawlState) :
    ((crawl_recursive cfg web url depth st).visited,
      (crawl_recursive cfg web url depth st).results.map (fun p => p.url)) =
      dfsSpec cfg (pageGraph web) url depth
        (st.visited, st.results.map (fun p => p.url)) := by
  rw [crawl_recursive, dfsSpec]
  by_cases hdep : cfg.max_depth < depth
  · rw [dif_pos hdep, dif_pos hdep]
  · rw [dif_neg hdep, dif_neg hdep]
    by_cases hbud : cfg.max_pages ≤ st.results.length
    · have hbud2 : cfg.max_pages ≤
          (st.visited, st.results.map (fun p => p.url)).2.length := by
        simpa using hbud
      rw [if_pos hbud, if_pos hbud2]
    · have hbud2 : ¬ cfg.max_pages ≤
          (st.visited, st.results.map (fun p => p.url)).2.length := by
        simpa using hbud
      rw [if_neg hbud, if_neg hbud2]
      by_cases hvis : clean_url url ∈ st.visited
      · have hvis2 : clean_url url ∈ (st.visited, st.results.map (fun p => p.url)).1 := hvis
        rw [if_pos hvis, if_pos hvis2]
      · have hvis2 : clean_url url ∉ (st.visited, st.results.map (fun p => p.url)).1 := hvis
        rw [if_neg hvis, if_neg hvis2]
        cases hw : web (clean_url url) with
        | none =>
          have h1 : scrape_page web (clean_url url) depth = none := by
            rw [scrape_page, hw]
          have h2 : pageGraph web (clean_url url) = none := by
            rw [pageGraph, hw]
            rfl
          rw [h1, h2]
        | some doc =>
          have h1 : scrape_page web (clean_url url) depth =
              some ⟨clean_url url, extract_title doc, extract_content doc,
                extract_links (stripTagsF badTags doc) (clean_url url), depth⟩ := by
            rw [scrape_page, hw]
          have h2 : pageGraph web (clean_url url) =
              some (extract_links (stripTagsF badTags doc) (clean_url url)) := by
            rw [pageGraph, hw]
            rfl
          rw [h1, h2]
          have key := crawlLinksWith_dfs cfg (clean_url url)
            (fun l st2 => crawl_recursive cfg web l (depth + 1) st2)
            (fun l vo2 => dfsSpec cfg (pageGraph web) l (depth + 1) vo2)
            (extract_links (stripTagsF badTags doc) (clean_url url))
            (fun l _ st2 => crawl_recursive_dfs cfg web l (depth + 1) st2)
            ⟨st.visited ++ [clean_url url],
              st.results ++ [⟨clean_url url, extract_title doc, extract_content doc,
                extract_links (stripTagsF badTags doc) (clean_url url), depth⟩],
              st.fetched ++ [clean_url url]⟩
          simpa [List.map_append] using key
termination_by cfg.max_depth + 1 - depth
decreasing_by omega

/-! ## Claim theorems -/

/-- C1: the session invariants hold at every reachable state — any state
satisfying them still satisfies them after any further recursive crawl (the
visited list never acquires duplicates, every result's URL is in the visited
set, the number of results never exceeds `max_pages`, every result's depth is
at most `max_depth`); and every session that `scrape_website` runs to
completion ends, from its cleared initial state, in a state satisfying them,
with exactly those results returned. -/
theorem crawl_session_invariants (cfg : CrawlConfig) (web : String → Option HForest) :
    (∀ url depth st, SessionInv cfg st →
        SessionInv cfg (crawl_recursive cfg web url depth st)) ∧
    (∀ prior s res st2, scrape_website cfg web prior s = (Except.ok res, st2) →
        res = st2.results ∧ SessionInv cfg st2) := by
  constructor
  · exact sessionInv_preserved cfg web
  · intro prior s res st2 hrun
    unfold scrape_website at hrun
    cases hn : normalize_url s with
    | none =>
      rw [hn] at hrun
      simp at hrun
    | some nu =>
      rw [hn] at hrun
      injection hrun with h1 h2
      injection h1 with h1
      subst h2
      exact ⟨h1.symm, sessionInv_preserved cfg web nu 0 ⟨[], [], []⟩
        ⟨List.nodup_nil, by simp, by simp, by simp⟩⟩

/-- Witness for C1: a concrete crawl from the empty session state. -/
theorem crawl_session_invariants_witness :
    SessionInv ⟨2, 5⟩ (crawl_recursive ⟨2, 5⟩ (fun _ => none) "https://a.com" 0 ⟨[], [], []⟩) :=
  (crawl_session_invariants ⟨2, 5⟩ (fun _ => none)).1 "https://a.com" 0 ⟨[], [], []⟩
    ⟨List.nodup_nil, by simp, by simp, by simp⟩

/-- C3: per-page failures are contained.  (i) the fetch-trace invariant is
preserved by every crawl step: no URL is ever fetched twice in a session
(the trace is duplicate-free) because every fetched URL is in the visited set
and the fetch happens only on unvisited URLs; (ii) when the fetch of a URL
fails, the crawl of that URL returns normally, marking it visited (and
fetched) but appending nothing to the results — the branch is abandoned;
(iii) the link loop then continues with the remaining sibling links; (iv) a
session with a normalizable seed always returns `Except.ok` — no exception
reaches the caller whatever the web does. -/
theorem crawl_failure_isolation (cfg : CrawlConfig) (web : String → Option HForest) :
    (∀ url depth st, FetchInv st → FetchInv (crawl_recursive cfg web url depth st)) ∧
    (∀ url depth st, web (clean_url url) = none → ¬ cfg.max_depth < depth →
        ¬ cfg.max_pages ≤ st.results.length → clean_url url ∉ st.visited →
        crawl_recursive cfg web url depth st =
          ⟨st.visited ++ [clean_url url], st.results, st.fetched ++ [clean_url url]⟩) ∧
    (∀ (recur : String → CrawlState → CrawlState) u l ls st,
        ¬ cfg.max_pages ≤ st.results.length → is_same_domain u l = true →
        crawlLinksWith cfg u recur (l :: ls) st =
          crawlLinksWith cfg u recur ls (recur l st)) ∧
    (∀ prior s nu, normalize_url s = some nu →
        (scrape_website cfg web prior s).1 =
          Except.ok (crawl_recursive cfg web nu 0 ⟨[], [], []⟩).results) := by
  refine ⟨fetchInv_preserved cfg web, ?_, ?_, ?_⟩
  · intro url depth st hweb hdep hbud hvis
    rw [crawl_recursive, dif_neg hdep, if_neg hbud, if_neg hvis]
    have hsp : scrape_page web (clean_url url) depth = none := by
      rw [scrape_page, hweb]
    rw [hsp]
  · intro recur u l ls st hbud hdom
    conv_lhs => rw [crawlLinksWith]
    rw [if_neg hbud, if_pos hdom]
  · intro prior s nu hn
    unfold scrape_website
    rw [hn]

/-- Witness for C3: a crawl whose seed page fails to fetch marks it visited
and fetched and returns with no results. -/
theorem crawl_failure_isolation_witness :
    crawl_recursive ⟨3, 50⟩ (fun _ => none) "https://a.com/x" 0 ⟨[], [], []⟩ =
      ⟨["https://a.com/x"], [], ["https://a.com/x"]⟩ := by
  have h := (crawl_failure_isolation ⟨3, 50⟩ (fun _ => none)).2.1 "https://a.com/x" 0
    ⟨[], [], []⟩ rfl (by decide) (by decide) (by simp)
  rw [h]
  decide

/-- C5: same-domain scoping.  For every session whose seed normalizes, the
normalized seed has a host, and every URL ever added to the visited set as
well as every result URL has exactly that host: links are followed only when
`is_same_domain` holds, and by induction over the recursion (the preservation
lemma behind this theorem) the whole traversal stays on the seed's host. -/
theorem crawl_same_domain_scope (cfg : CrawlConfig) (web : String → Option HForest) :
    ∀ prior s res st2 nu, scrape_website cfg web prior s = (Except.ok res, st2) →
      normalize_url s = some nu →
      ∃ hdom, get_domain nu = some hdom ∧
        (∀ v ∈ st2.visited, get_domain v = some hdom) ∧
        ∀ p ∈ st2.results, get_domain p.url = some hdom := by
  intro prior s res st2 nu hrun hnu
  obtain ⟨nu2, hnu2, hst2, -⟩ := scrape_website_ok hrun
  rw [hnu] at hnu2
  injection hnu2 with hnu2
  subst hnu2
  have hv := normalize_valid hnu
  obtain ⟨d, hd⟩ := get_domain_of_valid hv
  have hinv := domValidInv_preserved cfg web d nu 0 ⟨[], [], []⟩ hv hd ⟨by simp, by simp⟩
  rw [← hst2] at hinv
  exact ⟨d, hd, fun v hv2 => (hinv.1 v hv2).2, fun p hp => (hinv.2 p hp).2⟩

/-- Witness for C5: a concrete seed crawl against a web with no pages. -/
theorem crawl_same_domain_scope_witness :
    ∃ hdom, get_domain "https://a.com" = some hdom ∧
      (∀ v ∈ (crawl_recursive ⟨1, 5⟩ (fun _ => none) "https://a.com" 0 ⟨[], [], []⟩).visited,
        get_domain v = some hdom) ∧
      ∀ p ∈ (crawl_recursive ⟨1, 5⟩ (fun _ => none) "https://a.com" 0 ⟨[], [], []⟩).results,
        get_domain p.url = some hdom :=
  crawl_same_domain_scope ⟨1, 5⟩ (fun _ => none) ⟨[], [], []⟩ "https://a.com"
    (crawl_recursive ⟨1, 5⟩ (fun _ => none) "https://a.com" 0 ⟨[], [], []⟩).results
    (crawl_recursive ⟨1, 5⟩ (fun _ => none) "https://a.com" 0 ⟨[], [], []⟩)
    "https://a.com"
    (by unfold scrape_website
        rw [(by decide : normalize_url "https://a.com" = some "https://a.com")])
    (by decide)

/-- C10: every URL the crawl ever adds to the visited set — and hence every
result URL — is a valid absolute URL (scheme http or https and a nonempty
host, as `is_valid_url` checks): the seed passed `normalize_url`'s
validation, every followed link passed `make_absolute_url`'s validation, and
`clean_url`'s trailing-slash removal preserves validity. -/
theorem crawl_urls_valid (cfg : CrawlConfig) (web : String → Option HForest) :
    (∀ hdom url depth st, is_valid_url url = true → get_domain url = some hdom →
        DomValidInv hdom st → DomValidInv hdom (crawl_recursive cfg web url depth st)) ∧
    ((∀ u : String, is_valid_url u = true →
        is_valid_url (clean_url u) = true ∧ get_domain (clean_url u) = get_domain u) ∧
      ∀ prior s res st2, scrape_website cfg web prior s = (Except.ok res, st2) →
        (∀ v ∈ st2.visited, is_valid_url v = true) ∧
          ∀ p ∈ st2.results, is_valid_url p.url = true) := by
  refine ⟨fun hdom url depth st h1 h2 h3 =>
    domValidInv_preserved cfg web hdom url depth st h1 h2 h3,
    fun u hu => is_valid_clean_url hu, ?_⟩
  intro prior s res st2 hrun
  obtain ⟨nu, hnu, hst2, -⟩ := scrape_website_ok hrun
  have hv := normalize_valid hnu
  obtain ⟨d, hd⟩ := get_domain_of_valid hv
  have hinv := domValidInv_preserved cfg web d nu 0 ⟨[], [], []⟩ hv hd ⟨by simp, by simp⟩
  rw [← hst2] at hinv
  exact ⟨fun v hv2 => (hinv.1 v hv2).1, fun p hp => (hinv.2 p hp).1⟩

/-- Witness for C10: a concrete crawl stays valid from the empty state. -/
theorem crawl_urls_valid_witness :
    DomValidInv "a.com"
      (crawl_recursive ⟨1, 5⟩ (fun _ => none) "https://a.com" 0 ⟨[], [], []⟩) :=
  (crawl_urls_valid ⟨1, 5⟩ (fun _ => none)).1 "a.com" "https://a.com" 0 ⟨[], [], []⟩
    (by decide) (by decide) ⟨by simp, by simp⟩

/-- C2: when the seed fails normalization, `scrape_website` returns the
explicit invalid-URL error, performs no fetch and leaves the session state —
visited set, results list (and the ghost fetch trace) — exactly as it was;
and an error is distinct from a successful crawl returning zero pages. -/
theorem scrape_website_invalid_seed (cfg : CrawlConfig) (web : String → Option HForest)
    (prior : CrawlState) (s : String) (h : normalize_url s = none) :
    scrape_website cfg web prior s = (Except.error ("Invalid URL: " ++ s), prior) ∧
      ∀ res : List ScrapedPage,
        (Except.error ("Invalid URL: " ++ s) : Except String (List ScrapedPage)) ≠
          Except.ok res := by
  constructor
  · unfold scrape_website
    rw [h]
  · intro res hcontra
    cases hcontra

/-- Witness for C2 at the spec's own example seed `"not a url"` and a
nonempty prior session state. -/
theorem scrape_website_invalid_seed_witness :
    normalize_url "not a url" = none ∧
      scrape_website ⟨3, 50⟩ (fun _ => none) ⟨["https://x.com"], [], ["https://x.com"]⟩
          "not a url" =
        (Except.error ("Invalid URL: " ++ "not a url"),
          ⟨["https://x.com"], [], ["https://x.com"]⟩) :=
  ⟨by decide,
    (scrape_website_invalid_seed ⟨3, 50⟩ (fun _ => none)
      ⟨["https://x.com"], [], ["https://x.com"]⟩ "not a url" (by decide)).1⟩

/-- C6 counterexample: on a page whose title element is empty but which has an
h1, the code returns `""` (BeautifulSoup tags are truthy, and the code returns
inside the `if soup.title:` branch), while the spec's rule would fall through
to the h1 text. -/
theorem extract_title_ne_specTitle :
    extract_title emptyTitleDoc ≠ specTitle emptyTitleDoc := by decide

/-- C6 (amended): when a title element exists the extracted title is its
`.string` stripped — the empty string when it has no string — regardless of
any h1; the first h1's stripped text applies only when no title element
exists; and `"Untitled"` only when neither exists. -/
theorem extract_title_cases (doc : HForest) :
    (∀ t, findElemF "title" doc = some t →
      extract_title doc =
        (match nodeString t with
         | some s => String.mk (trimChars s.data)
         | none => "")) ∧
    (findElemF "title" doc = none → ∀ h1, findElemF "h1" doc = some h1 →
      extract_title doc = String.mk (trimChars (nodeGetText h1))) ∧
    (findElemF "title" doc = none → findElemF "h1" doc = none →
      extract_title doc = "Untitled") := by
  refine ⟨?_, ?_, ?_⟩
  · intro t ht
    unfold extract_title
    simp only [ht]
    cases hs : nodeString t with
    | none => simp only [hs]
    | some s =>
      simp only [hs]
      by_cases h0 : s = ""
      · subst h0
        simp only [if_pos]
        rfl
      · simp only [if_neg h0]
  · intro hnone h1 hh
    unfold extract_title
    rw [hnone, hh]
  · intro h1 h2
    unfold extract_title
    rw [h1, h2]

/-- Witness for C6 (amended): a title element whose string carries
surrounding whitespace, next to an h1 that must be ignored. -/
theorem extract_title_cases_witness :
    extract_title (.cons (.elem "title" [] (.cons (.text "  T  ") .nil))
        (.cons (.elem "h1" [] (.cons (.text "Heading") .nil)) .nil)) = "T" := by
  have h := (extract_title_cases
    (.cons (.elem "title" [] (.cons (.text "  T  ") .nil))
      (.cons (.elem "h1" [] (.cons (.text "Heading") .nil)) .nil))).1
    (.elem "title" [] (.cons (.text "  T  ") .nil)) rfl
  rw [h]
  decide

/-- C8: the extracted link list is exactly the document-order hrefs of the
anchors, with fragment/javascript/mailto/tel targets skipped, resolved by
`make_absolute_url` (so kept only when valid), deduplicated keeping first
occurrences; and on the spec's three-anchor example page over base
`https://a.com/` it is exactly `["https://a.com/about"]`. -/
theorem extract_links_spec :
    (∀ doc base, extract_links doc base =
      dedupKeepFirst ((hrefsF doc).filterMap (resolveHref base))) ∧
      extract_links linkExampleDoc "https://a.com/" = ["https://a.com/about"] := by
  constructor
  · intro doc base
    unfold extract_links dedupKeepFirst
    exact linksLoop_eq_foldl base (hrefsF doc) []
  · decide

set_option maxHeartbeats 4000000 in
/-- C4: the crawl traversal is exactly the spec's depth-first expansion in
link order — for every configuration, site, start URL, depth and state, the
visited list and the order of result URLs of `crawl_recursive` equal those of
the spec-side `dfsSpec` over the page link graph, whose stopping conditions
are checked before each expansion and which expands each same-domain link
fully before its next sibling; and on the four-page example site the child
`/a1` is scraped before the sibling `/b`. -/
theorem crawl_depth_first :
    (∀ cfg web url depth st,
      ((crawl_recursive cfg web url depth st).visited,
        (crawl_recursive cfg web url depth st).results.map (fun p => p.url)) =
        dfsSpec cfg (pageGraph web) url depth
          (st.visited, st.results.map (fun p => p.url))) ∧
      (crawl_recursive ⟨2, 10⟩ dfsExampleWeb "https://x.com" 0 ⟨[], [], []⟩).results.map
          (fun p => p.url) =
        ["https://x.com", "https://x.com/a", "https://x.com/a1", "https://x.com/b"] :=
  ⟨fun cfg web url depth st => crawl_recursive_dfs cfg web url depth st, by
    simp +decide [crawl_recursive, crawlLinksWith, scrape_page, dfsExampleWeb]⟩

/-- Counterexample for C7 as stated: a tab inside a line is not collapsed —
the cleanup only splits at line breaks and double spaces, so `"a\tb"` keeps
its tab, while the spec's whitespace-run collapse replaces it with a space. -/
theorem extract_content_ne_specContent :
    extract_content (.cons (.text "a\tb") .nil) ≠
      specContent (.cons (.text "a\tb") .nil) := by
  decide

/-- C7 (amended): with the script/style/nav/footer/header/aside elements
removed first, the extracted content is the page text with every whitespace
run collapsed to a single space whenever that text contains no tab character
(a tab inside a line is kept verbatim); and the spec's example body
`<script>ignored</script><p>Hello  World</p>` yields exactly `"Hello World"`. -/
theorem extract_content_spec :
    (∀ doc : HForest, '\t' ∉ forestGetText (stripTagsF badTags doc) →
        extract_content doc = specContent doc) ∧
      extract_content (.cons (.elem "script" [] (.cons (.text "ignored") .nil))
        (.cons (.elem "p" [] (.cons (.text "Hello  World") .nil)) .nil)) =
        "Hello World" := by
  constructor
  · intro doc hnt
    unfold extract_content specContent
    rw [cleanTextChars_eq_specCollapse hnt]
  · decide

/-- Witness for C7 (amended): a tab-free page with leading, trailing, double
and newline whitespace, on which the code's cleanup and the spec's collapse
agree. -/
theorem extract_content_spec_witness :
    extract_content (.cons (.text " Hello \n  World ") .nil) =
      specContent (.cons (.text " Hello \n  World ") .nil) :=
  extract_content_spec.1 (.cons (.text " Hello \n  World ") .nil) (by decide)

set_option maxHeartbeats 1000000 in
/-- C9: `normalize_url` is a fixed point on its own outputs — whenever it
returns a non-null result `r`, normalizing `r` again returns `r` itself. -/
theorem normalize_url_idem (u r : String) (h : normalize_url u = some r) :
    normalize_url r = some r := by
  unfold normalize_url at h
  by_cases hu0 : u = ""
  · rw [if_pos hu0] at h
    cases h
  · rw [if_neg hu0] at h
    cases hnc : normalizeChars u.data with
    | none =>
      rw [hnc] at h
      cases h
    | some rc =>
      rw [hnc, Option.map_some'] at h
      injection h with h
      subst h
      have hidem := normalizeChars_idem hnc
      have hrcne : rc ≠ [] := normalizeChars_ne_nil hnc
      have hne : ¬(String.mk rc = "") := fun he =>
        hrcne (by simpa using congrArg String.data he)
      unfold normalize_url
      rw [if_neg hne, show (String.mk rc).data = rc from rfl, hidem, Option.map_some']

/-- Witness for C9: the doc's own example — a bare host gains the default
scheme, and the result re-normalizes to itself. -/
theorem normalize_url_idem_witness :
    normalize_url "example.com" = some "https://example.com" ∧
      normalize_url "https://example.com" = some "https://example.com" :=
  ⟨by decide, normalize_url_idem "example.com" "https://example.com" (by decide)⟩

end RagScraper
